import Mathlib

/-! ImageConverter: row partitioning and per-pixel transforms

A shallow embedding of `ImageConverter.cpp`: the five image passes
(`invertImage`, `invertImage2`, `invertImage3`, `flipVertical`,
`flipHorizontal`), the loops they are made of and the 32-bit mixed
`int`/`unsigned` arithmetic that computes the rows of each OpenMP worker.

Conventions of the embedding.

* A C++ `int` is an `Int`, an `unsigned` is a `Nat`; every mixed expression of
  the source goes through `toUnsigned`, `uadd`, `umul`, `usub` (arithmetic
  modulo `2^32`) and `toInt` (two's-complement conversion back to `int`).
* A TSGL `Background` is a pixel store read with `getPixel` and written with
  `drawPixel`; a store is total on `Int × Int`, so that a write outside the
  window is visible in the model instead of being lost.
* `canvas.sleep()`, the timing code and the window management have no effect on
  any pixel and are left out.
* An OpenMP team is run one worker after the other in the order of the thread
  ids; every pixel a pass writes depends on the source image only, which no
  pass modifies.
-/

namespace ImageConverter

/-! ## Data model -/

/-- The colour of a pixel: TSGL's `ColorInt`, the three channels the passes read. -/
structure ColorInt where
  R : Int
  G : Int
  B : Int
deriving DecidableEq, Repr

/-- The pixel store behind a canvas: TSGL's `Background`. -/
structure Background where
  pixel : Int → Int → ColorInt

/-- The colour stored at `(x, y)`: `background->getPixel(x, y)`. -/
def Background.getPixel (bg : Background) (x y : Int) : ColorInt :=
  bg.pixel x y

/-- The store after `background->drawPixel(x, y, c)`. -/
def Background.drawPixel (bg : Background) (x y : Int) (c : ColorInt) : Background :=
  ⟨fun u v => if u = x ∧ v = y then c else bg.pixel u v⟩

/-! ## 32-bit arithmetic -/

/-- Conversion of an `int` to `unsigned`: the value modulo `2^32`. -/
def toUnsigned (i : Int) : Nat :=
  (i % 4294967296).toNat

/-- Conversion of an `unsigned` to `int`: values from `2^31` on wrap to the negatives. -/
def toInt (u : Nat) : Int :=
  if u % 4294967296 < 2147483648 then ((u % 4294967296 : Nat) : Int)
  else ((u % 4294967296 : Nat) : Int) - 4294967296

/-- Sum of two `unsigned` values. -/
def uadd (a b : Nat) : Nat :=
  (a + b) % 4294967296

/-- Product of two `unsigned` values. -/
def umul (a b : Nat) : Nat :=
  (a * b) % 4294967296

/-- Difference of two `unsigned` values. -/
def usub (a b : Nat) : Nat :=
  (a % 4294967296 + (4294967296 - b % 4294967296)) % 4294967296

/-! ## Window bounds -/

/-- Left column: `START_X = -WIN_WIDTH / 2`, C++ division truncating toward zero. -/
def START_X (WIN_WIDTH : Int) : Int :=
  Int.tdiv (-WIN_WIDTH) 2

/-- Bottom row: `START_Y = -WIN_HEIGHT / 2`. -/
def START_Y (WIN_HEIGHT : Int) : Int :=
  Int.tdiv (-WIN_HEIGHT) 2

/-- Right column + 1: `STOP_X = +WIN_WIDTH / 2`. -/
def STOP_X (WIN_WIDTH : Int) : Int :=
  Int.tdiv WIN_WIDTH 2

/-- Top row + 1: `STOP_Y = +WIN_HEIGHT / 2`. -/
def STOP_Y (WIN_HEIGHT : Int) : Int :=
  Int.tdiv WIN_HEIGHT 2

/-! ## Loops -/

/-- The iterations of `for (int i = ...; ...; ++i)` that remain, `n` of them, from `i` on. -/
def forUpAux {σ : Type} (body : Int → σ → σ) : Nat → Int → σ → σ
  | 0, _, s => s
  | n + 1, i, s => forUpAux body n (i + 1) (body i s)

/-- The loop `for (int i = start; i < stop; ++i) body`: it runs `stop - start` times when
`start < stop` and not at all otherwise. -/
def forUp {σ : Type} (start stop : Int) (body : Int → σ → σ) (s : σ) : σ :=
  forUpAux body (stop - start).toNat start s

/-- The loop `for (int y = y0; y < stopY; y += numThreads) rowBody` of `invertImage2`, where
`y += numThreads` adds an `unsigned` to an `int`. The loop is not bounded by its text, so the
model counts iterations down from `fuel` and yields `none` when they do not suffice. -/
def interleaveLoop {σ : Type} (stopY : Int) (numThreads : Nat) (rowBody : Int → σ → σ) :
    Nat → Int → σ → Option σ
  | 0, y, s => if y < stopY then none else some s
  | fuel + 1, y, s =>
    if y < stopY then
      interleaveLoop stopY numThreads rowBody fuel
        (toInt (uadd (toUnsigned y) numThreads)) (rowBody y s)
    else some s

/-- The region `#pragma omp parallel { ... }` run by a team of `numThreads` workers, worker
`id` executing `region id`. -/
def ompParallel {σ : Type} (numThreads : Nat) (region : Nat → σ → σ) (s : σ) : σ :=
  (List.range numThreads).foldl (fun acc id => region id acc) s

/-- The region `#pragma omp parallel { ... }` for a region that may run out of fuel. -/
def ompParallelFuel {σ : Type} (numThreads : Nat) (region : Nat → σ → Option σ) (s : σ) :
    Option σ :=
  (List.range numThreads).foldlM (fun acc id => region id acc) s

/-- The loop `#pragma omp parallel for  for (int y = start; y < stop; ++y) body`: the runtime
gives every iteration to one worker of the team, `schedule y` modulo the team size, and each
worker runs the iterations it was given in ascending order. -/
def ompParallelFor {σ : Type} (numThreads : Nat) (schedule : Int → Nat) (start stop : Int)
    (body : Int → σ → σ) (s : σ) : σ :=
  ompParallel numThreads
    (fun id acc =>
      forUp start stop (fun y a => if schedule y % numThreads = id then body y a else a) acc)
    s

/-! ## Row assignments -/

/-- The ceiling of `n / k` for a positive `k`: the value of `ceil(iterations / numThreads)`.
Both operands are integers below `2^53`, so the `double` quotient is rounded to a value on
the same side of every integer as the exact quotient and `ceil` of it is exact. -/
def ceilDiv (n : Int) (k : Nat) : Int :=
  -((-n) / (k : Int))

/-- The chunk size of `invertImage3`:
`iterations = STOP_Y - START_Y; chunkSize = (unsigned)ceil(iterations / numThreads)`.
For `numThreads = 0` (a division by zero in the source) and for a negative row count (the
conversion of a negative `double` to `unsigned`) C++ fixes no value; the model yields 0. -/
def chunkSize (startY stopY : Int) (numThreads : Nat) : Nat :=
  (ceilDiv (stopY - startY) numThreads).toNat % 4294967296

/-- First row of worker `id` in `invertImage3`: `int start = id * chunkSize + START_Y`. -/
def chunkStart (startY : Int) (id chunk : Nat) : Int :=
  toInt (uadd (umul id chunk) (toUnsigned startY))

/-- Row bound of worker `id` in `invertImage3`:
`if (id < numThreads - 1) stop = start + chunkSize; else stop = STOP_Y;`. -/
def chunkStop (stopY : Int) (numThreads id chunk : Nat) (start : Int) : Int :=
  if id < usub numThreads 1 then toInt (uadd (toUnsigned start) chunk) else stopY

/-- The body of the parallel region of `invertImage3` for worker `id`, with the work done on
a row abstracted as `rowBody`. -/
def invertImage3Region {σ : Type} (rowBody : Int → σ → σ) (startY stopY : Int)
    (numThreads id : Nat) (s : σ) : σ :=
  let chunk := chunkSize startY stopY numThreads
  let start := chunkStart startY id chunk
  let stop := chunkStop stopY numThreads id chunk start
  forUp start stop rowBody s

/-- The body of the parallel region of `invertImage2` for worker `id`: the row loop starts
at `START_Y + id`. -/
def invertImage2Region {σ : Type} (rowBody : Int → σ → σ) (startY stopY : Int)
    (numThreads id : Nat) (fuel : Nat) (s : σ) : Option σ :=
  interleaveLoop stopY numThreads rowBody fuel (toInt (uadd (toUnsigned startY) id)) s

/-- The rows worker `id` of `invertImage3` iterates, in the order it iterates them. -/
def invertImage3Rows (startY stopY : Int) (numThreads id : Nat) : List Int :=
  invertImage3Region (fun y rows => rows ++ [y]) startY stopY numThreads id []

/-- The rows worker `id` of `invertImage2` iterates, in the order it iterates them. -/
def invertImage2Rows (startY stopY : Int) (numThreads id : Nat) (fuel : Nat) :
    Option (List Int) :=
  invertImage2Region (fun y rows => rows ++ [y]) startY stopY numThreads id fuel []

/-! ## Transforms -/

/-- The inverse of a colour: `ColorInt(255 - R, 255 - G, 255 - B)`. -/
def invertColor (pixelColor : ColorInt) : ColorInt :=
  ⟨255 - pixelColor.R, 255 - pixelColor.G, 255 - pixelColor.B⟩

/-- Where `flipVertical` draws the pixel it read at `(x, y)`. -/
def flipVerticalDest (startY stopY : Int) (p : Int × Int) : Int × Int :=
  (p.1, stopY - 1 - (p.2 - startY))

/-- Where `flipHorizontal` draws the pixel it read at `(x, y)`. -/
def flipHorizontalDest (startX stopX : Int) (p : Int × Int) : Int × Int :=
  (stopX - 1 - (p.1 - startX), p.2)

/-- The column loop of the inversion passes on row `y`. -/
def invertRow (background0 : Background) (startX stopX : Int) (y : Int)
    (background1 : Background) : Background :=
  forUp startX stopX
    (fun x bg => bg.drawPixel x y (invertColor (background0.getPixel x y))) background1

/-- The column loop of `flipVertical` on row `y`. -/
def flipVerticalRow (background0 : Background) (startX stopX startY stopY : Int) (y : Int)
    (background1 : Background) : Background :=
  forUp startX stopX
    (fun x bg =>
      bg.drawPixel (flipVerticalDest startY stopY (x, y)).1
        (flipVerticalDest startY stopY (x, y)).2 (background0.getPixel x y))
    background1

/-- The column loop of `flipHorizontal` on row `y`. -/
def flipHorizontalRow (background0 : Background) (startX stopX : Int) (y : Int)
    (background1 : Background) : Background :=
  forUp startX stopX
    (fun x bg =>
      bg.drawPixel (flipHorizontalDest startX stopX (x, y)).1
        (flipHorizontalDest startX stopX (x, y)).2 (background0.getPixel x y))
    background1

/-! ## The passes -/

/-- `ImageConverter::invertImage`: the destination store after the pass. `background1` is
the fresh destination canvas, `numThreads` and `schedule` are the runtime's team and its
split of the row loop. -/
def invertImage (background0 background1 : Background) (WIN_WIDTH WIN_HEIGHT : Int)
    (numThreads : Nat) (schedule : Int → Nat) : Background :=
  ompParallelFor numThreads schedule (START_Y WIN_HEIGHT) (STOP_Y WIN_HEIGHT)
    (invertRow background0 (START_X WIN_WIDTH) (STOP_X WIN_WIDTH)) background1

/-- `ImageConverter::invertImage2`: rows dealt out one at a time. -/
def invertImage2 (background0 background2 : Background) (WIN_WIDTH WIN_HEIGHT : Int)
    (numThreads : Nat) (fuel : Nat) : Option Background :=
  ompParallelFuel numThreads
    (fun id bg =>
      invertImage2Region (invertRow background0 (START_X WIN_WIDTH) (STOP_X WIN_WIDTH))
        (START_Y WIN_HEIGHT) (STOP_Y WIN_HEIGHT) numThreads id fuel bg)
    background2

/-- `ImageConverter::invertImage3`: rows dealt out in equal-sized chunks. -/
def invertImage3 (background0 background3 : Background) (WIN_WIDTH WIN_HEIGHT : Int)
    (numThreads : Nat) : Background :=
  ompParallel numThreads
    (fun id bg =>
      invertImage3Region (invertRow background0 (START_X WIN_WIDTH) (STOP_X WIN_WIDTH))
        (START_Y WIN_HEIGHT) (STOP_Y WIN_HEIGHT) numThreads id bg)
    background3

/-- `ImageConverter::flipVertical`. -/
def flipVertical (background0 background1 : Background) (WIN_WIDTH WIN_HEIGHT : Int)
    (numThreads : Nat) (schedule : Int → Nat) : Background :=
  ompParallelFor numThreads schedule (START_Y WIN_HEIGHT) (STOP_Y WIN_HEIGHT)
    (flipVerticalRow background0 (START_X WIN_WIDTH) (STOP_X WIN_WIDTH)
      (START_Y WIN_HEIGHT) (STOP_Y WIN_HEIGHT))
    background1

/-- `ImageConverter::flipHorizontal`. -/
def flipHorizontal (background0 background1 : Background) (WIN_WIDTH WIN_HEIGHT : Int)
    (numThreads : Nat) (schedule : Int → Nat) : Background :=
  ompParallelFor numThreads schedule (START_Y WIN_HEIGHT) (STOP_Y WIN_HEIGHT)
    (flipHorizontalRow background0 (START_X WIN_WIDTH) (STOP_X WIN_WIDTH)) background1


/-! ## Vocabulary of the statements -/

/-- A pass `F` over the destination store paints `g` on the cells of `W`: afterwards a
cell of `W` holds `g` of its coordinates, whatever the order of the writes, and every other
cell holds what it held before. -/
structure Paints (g : Int → Int → ColorInt) (W : Int → Int → Prop)
    (F : Background → Background) : Prop where
  hit : ∀ bg u v, W u v → (F bg).pixel u v = g u v
  miss : ∀ bg u v, ¬ W u v → (F bg).pixel u v = bg.pixel u v

/-- The coordinates of the window: `START_X ≤ x < STOP_X` and `START_Y ≤ y < STOP_Y`. -/
def InGrid (WIN_WIDTH WIN_HEIGHT : Int) (x y : Int) : Prop :=
  START_X WIN_WIDTH ≤ x ∧ x < STOP_X WIN_WIDTH ∧ START_Y WIN_HEIGHT ≤ y ∧ y < STOP_Y WIN_HEIGHT

instance (WIN_WIDTH WIN_HEIGHT x y : Int) : Decidable (InGrid WIN_WIDTH WIN_HEIGHT x y) := by
  unfold InGrid
  exact inferInstance

/-! ## Example surfaces -/

/-- A destination canvas before a pass draws on it. -/
def blankCanvas : Background :=
  ⟨fun _ _ => ⟨0, 0, 0⟩⟩

/-- A 4×4 source surface whose pixel `(0, 0)` is `(10, 20, 30)`. -/
def originSurface : Background :=
  ⟨fun x y => if x = 0 ∧ y = 0 then ⟨10, 20, 30⟩ else ⟨7, 7, 7⟩⟩

/-- The eight colours `A` ... `H` of the 2-row example, numbered 1 to 8. -/
def letter (n : Int) : ColorInt :=
  ⟨n, n + 100, n + 200⟩

/-- The 2-row, 4-column surface `[[A, B, C, D], [E, F, G, H]]`: columns `-2 .. 1`, the row
`[A, B, C, D]` at `y = -1` and the row `[E, F, G, H]` at `y = 0`. -/
def lettersSurface : Background :=
  ⟨fun x y =>
    if y = -1 then
      (if x = -2 then letter 1 else if x = -1 then letter 2 else if x = 0 then letter 3
        else letter 4)
    else
      (if x = -2 then letter 5 else if x = -1 then letter 6 else if x = 0 then letter 7
        else letter 8)⟩

/-- The two rows of a 2-row, 4-column surface, each read from column `-2` to column `1`. -/
def rows2x4 (bg : Background) : List (List ColorInt) :=
  [[bg.getPixel (-2) (-1), bg.getPixel (-1) (-1), bg.getPixel 0 (-1), bg.getPixel 1 (-1)],
   [bg.getPixel (-2) 0, bg.getPixel (-1) 0, bg.getPixel 0 0, bg.getPixel 1 0]]

/-! ## Visited cells and colour range -/

/-- The coordinates the loop nest of `invertImage`, `flipVertical` and `flipHorizontal`
reads, in the order a team of `numThreads` workers run one after the other reads them: the
row loop is `#pragma omp parallel for` over `[START_Y, STOP_Y)`, the column loop runs over
`[START_X, STOP_X)`. -/
def visitedCells (WIN_WIDTH WIN_HEIGHT : Int) (numThreads : Nat) (schedule : Int → Nat) :
    List (Int × Int) :=
  ompParallelFor numThreads schedule (START_Y WIN_HEIGHT) (STOP_Y WIN_HEIGHT)
    (fun y cells =>
      forUp (START_X WIN_WIDTH) (STOP_X WIN_WIDTH) (fun x acc => acc ++ [(x, y)]) cells)
    []

/-- Every channel of the colour lies in `[0, 255]`. -/
def ChannelsInRange (c : ColorInt) : Prop :=
  (0 ≤ c.R ∧ c.R ≤ 255) ∧ (0 ≤ c.G ∧ c.G ≤ 255) ∧ (0 ≤ c.B ∧ c.B ≤ 255)

instance (c : ColorInt) : Decidable (ChannelsInRange c) := by
  unfold ChannelsInRange
  exact inferInstance

/-! ## 32-bit arithmetic in range -/

theorem toInt_uadd_toUnsigned (a : Int) (b : Nat) (hlo : -2147483648 ≤ a + b)
    (hhi : a + b < 2147483648) : toInt (uadd (toUnsigned a) b) = a + b := by
  unfold toInt uadd toUnsigned
  split <;> omega

theorem usub_one (k : Nat) (hk1 : 1 ≤ k) (hk : k ≤ 4294967296) : usub k 1 = k - 1 := by
  unfold usub
  omega

theorem chunkStart_eq (startY : Int) (id chunk : Nat)
    (hlo : -2147483648 ≤ startY + ((id * chunk : Nat) : Int))
    (hhi : startY + ((id * chunk : Nat) : Int) < 2147483648) :
    chunkStart startY id chunk = startY + ((id * chunk : Nat) : Int) := by
  unfold chunkStart toInt uadd umul toUnsigned
  generalize id * chunk = p at *
  split <;> omega

theorem ceilDiv_bounds (n : Int) (k : Nat) (hk : 1 ≤ k) :
    n ≤ ceilDiv n k * k ∧ ceilDiv n k * k < n + k := by
  unfold ceilDiv
  have hk0 : (0 : Int) < k := by omega
  have h1 := Int.ediv_mul_le (-n) (ne_of_gt hk0)
  have h2 := Int.lt_ediv_add_one_mul_self (-n) hk0
  constructor <;> nlinarith

theorem ceilDiv_eq_ceil (n : Int) (k : Nat) (hk : 1 ≤ k) :
    ceilDiv n k = ⌈(n : ℚ) / (k : ℚ)⌉ := by
  have hk0 : (0 : ℚ) < k := by exact_mod_cast hk
  obtain ⟨h1, h2⟩ := ceilDiv_bounds n k hk
  symm
  rw [Int.ceil_eq_iff]
  constructor
  · rw [lt_div_iff₀ hk0]
    have : ((ceilDiv n k * k : Int) : ℚ) < ((n + k : Int) : ℚ) := by exact_mod_cast h2
    push_cast at this
    linarith
  · rw [div_le_iff₀ hk0]
    have : ((n : Int) : ℚ) ≤ ((ceilDiv n k * k : Int) : ℚ) := by exact_mod_cast h1
    push_cast at this
    linarith

/-! ## Loops as folds over the rows they visit -/

/-- The values `i, i + 1, ..., i + n - 1`. -/
theorem forUpAux_eq_foldl {σ : Type} (body : Int → σ → σ) (n : Nat) (i : Int) (s : σ) :
    forUpAux body n i s
      = ((List.range n).map (fun j : Nat => i + (j : Int))).foldl (fun acc y => body y acc) s := by
  induction n generalizing i s with
  | zero => rfl
  | succ n ih =>
    rw [forUpAux, ih, List.range_succ_eq_map]
    simp only [List.map_cons, List.foldl_cons, List.map_map, Nat.cast_zero, add_zero]
    congr 2
    funext j
    simp only [Function.comp_apply, Nat.succ_eq_add_one, Nat.cast_add, Nat.cast_one]
    ring

theorem foldl_log (l : List Int) (acc : List Int) :
    l.foldl (fun rows y => rows ++ [y]) acc = acc ++ l := by
  induction l generalizing acc with
  | nil => simp
  | cons a l ih => simp [ih]

theorem mem_upRange (n : Nat) (i y : Int) :
    y ∈ (List.range n).map (fun j : Nat => i + (j : Int)) ↔ i ≤ y ∧ y < i + n := by
  simp only [List.mem_map, List.mem_range]
  constructor
  · rintro ⟨j, hj, rfl⟩
    omega
  · rintro ⟨h1, h2⟩
    exact ⟨(y - i).toNat, by omega, by omega⟩

theorem mem_forUp_log (a b y : Int) :
    y ∈ forUp a b (fun t rows => rows ++ [t]) [] ↔ a ≤ y ∧ y < b := by
  unfold forUp
  rw [forUpAux_eq_foldl, foldl_log, List.nil_append, mem_upRange]
  omega

theorem interleaveLoop_eq_foldl {σ : Type} (stopY : Int) (k : Nat) (rowBody : Int → σ → σ)
    (hk : stopY + k ≤ 2147483648) (m : Nat) :
    ∀ (fuel : Nat) (y : Int) (s : σ), -2147483648 ≤ y → m ≤ fuel →
      stopY ≤ y + ((m * k : Nat) : Int) → y + ((m * k : Nat) : Int) < stopY + k ∨ m = 0 →
      interleaveLoop stopY k rowBody fuel y s
        = some (((List.range m).map (fun j : Nat => y + ((j * k : Nat) : Int))).foldl
            (fun acc t => rowBody t acc) s) := by
  induction m with
  | zero =>
    intro fuel y s _ _ hstop _
    have hy : ¬ y < stopY := by simpa using hstop
    cases fuel <;> simp [interleaveLoop, hy]
  | succ m ih =>
    intro fuel y s hlo hfuel hstop hlast
    have e : (((m + 1) * k : Nat) : Int) = ((m * k : Nat) : Int) + k := by
      push_cast; ring
    rw [e] at hstop hlast
    have hy : y < stopY := by
      have : (0 : Int) ≤ ((m * k : Nat) : Int) := Int.natCast_nonneg _
      omega
    obtain ⟨fuel, rfl⟩ : ∃ f, fuel = f + 1 := ⟨fuel - 1, by omega⟩
    rw [interleaveLoop, if_pos hy, toInt_uadd_toUnsigned y k (by omega) (by omega)]
    rw [ih fuel (y + k) (rowBody y s) (by omega) (by omega) (by omega)
      (by rcases Nat.eq_zero_or_pos m with h | h
          · right; exact h
          · left
            rcases hlast with h2 | h2
            · omega
            · omega)]
    rw [List.range_succ_eq_map]
    simp only [List.map_cons, List.foldl_cons, List.map_map, Nat.zero_mul, Nat.cast_zero,
      add_zero]
    congr 3
    funext j
    simp only [Function.comp_apply, Nat.succ_eq_add_one]
    push_cast
    ring

/-! ## The equal-chunk assignment of `invertImage3` -/

theorem chunkSize_bounds (startY stopY : Int) (k : Nat) (hk1 : 1 ≤ k)
    (hn : startY ≤ stopY) (hn2 : stopY - startY < 4294967296) :
    stopY - startY ≤ ((chunkSize startY stopY k * k : Nat) : Int) ∧
      ((chunkSize startY stopY k * k : Nat) : Int) < stopY - startY + k := by
  obtain ⟨h1, h2⟩ := ceilDiv_bounds (stopY - startY) k hk1
  have hk0 : (1 : Int) ≤ k := by exact_mod_cast hk1
  have hc0 : 0 ≤ ceilDiv (stopY - startY) k := by
    by_contra hneg
    have : ceilDiv (stopY - startY) k * k ≤ (-1) * k := by
      apply mul_le_mul_of_nonneg_right <;> omega
    omega
  have hcn : ceilDiv (stopY - startY) k ≤ stopY - startY := by
    by_contra hgt
    have : (stopY - startY + 1) * k ≤ ceilDiv (stopY - startY) k * k := by
      apply mul_le_mul_of_nonneg_right <;> omega
    have : (stopY - startY) * 1 ≤ (stopY - startY) * k := by
      apply mul_le_mul_of_nonneg_left <;> omega
    linarith
  have e : chunkSize startY stopY k = (ceilDiv (stopY - startY) k).toNat := by
    unfold chunkSize
    omega
  rw [e]
  push_cast
  rw [Int.toNat_of_nonneg hc0]
  exact ⟨h1, h2⟩

theorem chunk_mul_le (id k c : Nat) (hid : id < k) : id * c + c ≤ c * k := by
  have := Nat.mul_le_mul_right c (Nat.succ_le_of_lt hid)
  rw [Nat.succ_mul, Nat.mul_comm k c] at this
  exact this

/-- Without overflow, worker `id` of `invertImage3` runs its row body on the rows from
`START_Y + id * chunkSize` up to `START_Y + (id + 1) * chunkSize`, the last worker up to
`STOP_Y`. -/
theorem invertImage3Region_eq {σ : Type} (rowBody : Int → σ → σ) (startY stopY : Int)
    (k id : Nat) (s : σ) (hk1 : 1 ≤ k) (hk : k ≤ 1073741824)
    (hlo : -1073741824 ≤ startY) (hn : startY ≤ stopY) (hhi : stopY < 1073741824)
    (hid : id < k) :
    invertImage3Region rowBody startY stopY k id s
      = forUp (startY + ((id * chunkSize startY stopY k : Nat) : Int))
          (if id + 1 < k then startY + (((id + 1) * chunkSize startY stopY k : Nat) : Int)
            else stopY) rowBody s := by
  obtain ⟨_, h2⟩ := chunkSize_bounds startY stopY k hk1 hn (by omega)
  have h3 := chunk_mul_le id k (chunkSize startY stopY k) hid
  unfold invertImage3Region
  simp only
  have hs : chunkStart startY id (chunkSize startY stopY k)
      = startY + ((id * chunkSize startY stopY k : Nat) : Int) :=
    chunkStart_eq _ _ _ (by omega) (by omega)
  rw [hs]
  have ht : chunkStop stopY k id (chunkSize startY stopY k)
      (startY + ((id * chunkSize startY stopY k : Nat) : Int))
      = (if id + 1 < k then startY + (((id + 1) * chunkSize startY stopY k : Nat) : Int)
          else stopY) := by
    unfold chunkStop
    rw [usub_one k hk1 (by omega)]
    by_cases hlast : id + 1 < k
    · rw [if_pos (by omega), if_pos hlast, toInt_uadd_toUnsigned _ _ (by omega) (by omega)]
      rw [Nat.succ_mul]
      push_cast
      ring
    · rw [if_neg (by omega), if_neg hlast]
  rw [ht]

theorem mem_invertImage3Rows (startY stopY : Int) (k id : Nat) (y : Int) (hk1 : 1 ≤ k)
    (hk : k ≤ 1073741824) (hlo : -1073741824 ≤ startY) (hn : startY ≤ stopY)
    (hhi : stopY < 1073741824) (hid : id < k) :
    y ∈ invertImage3Rows startY stopY k id ↔
      startY + ((id * chunkSize startY stopY k : Nat) : Int) ≤ y ∧
        y < (if id + 1 < k then startY + (((id + 1) * chunkSize startY stopY k : Nat) : Int)
              else stopY) := by
  unfold invertImage3Rows
  rw [invertImage3Region_eq _ _ _ _ _ _ hk1 hk hlo hn hhi hid, mem_forUp_log]

/-- Every in-range row lies in the range of some worker of `invertImage3`. -/
theorem chunk_cover (startY stopY : Int) (k : Nat) (y : Int) (hk1 : 1 ≤ k)
    (hy1 : startY ≤ y) (hy2 : y < stopY) (hn2 : stopY - startY < 4294967296) :
    ∃ id, id < k ∧ startY + ((id * chunkSize startY stopY k : Nat) : Int) ≤ y ∧
      y < (if id + 1 < k then startY + (((id + 1) * chunkSize startY stopY k : Nat) : Int)
            else stopY) := by
  obtain ⟨h1, h2⟩ := chunkSize_bounds startY stopY k hk1 (by omega) hn2
  generalize chunkSize startY stopY k = c at *
  have hc : 1 ≤ c := by
    rcases Nat.eq_zero_or_pos c with h | h
    · subst h
      simp at h1
      omega
    · exact h
  have hcI : (0 : Int) < c := by exact_mod_cast hc
  have hq1 := Int.ediv_mul_le (y - startY) (ne_of_gt hcI)
  have hq2 := Int.lt_ediv_add_one_mul_self (y - startY) hcI
  have hq0 : 0 ≤ (y - startY) / (c : Int) := Int.ediv_nonneg (by omega) (by omega)
  obtain ⟨q, hq⟩ : ∃ q : Nat, (q : Int) = (y - startY) / (c : Int) :=
    ⟨((y - startY) / (c : Int)).toNat, Int.toNat_of_nonneg hq0⟩
  rw [← hq] at hq1 hq2
  by_cases hlast : q + 1 < k
  · refine ⟨q, by omega, ?_, ?_⟩
    · push_cast; omega
    · rw [if_pos hlast]
      push_cast
      omega
  · refine ⟨k - 1, by omega, ?_, ?_⟩
    · have : (k - 1) * c ≤ q * c := Nat.mul_le_mul_right c (by omega)
      have : (((k - 1) * c : Nat) : Int) ≤ ((q * c : Nat) : Int) := by exact_mod_cast this
      push_cast at this ⊢
      omega
    · rw [if_neg (by omega)]
      exact hy2

/-- The ranges of two different workers of `invertImage3` share no row. -/
theorem chunk_disjoint (startY stopY : Int) (k c : Nat) (y : Int) (a b : Nat) (hab : a < b)
    (hb : b < k)
    (ha2 : y < (if a + 1 < k then startY + (((a + 1) * c : Nat) : Int) else stopY))
    (hb1 : startY + ((b * c : Nat) : Int) ≤ y) : False := by
  rw [if_pos (by omega)] at ha2
  have : (a + 1) * c ≤ b * c := Nat.mul_le_mul_right c (by omega)
  have : (((a + 1) * c : Nat) : Int) ≤ ((b * c : Nat) : Int) := by exact_mod_cast this
  omega

theorem upRange_nodup (n : Nat) (i : Int) :
    ((List.range n).map (fun j : Nat => i + (j : Int))).Nodup := by
  apply List.Nodup.map _ (List.nodup_range n)
  intro a b h
  simp only at h
  omega

theorem invertImage3Rows_nodup (startY stopY : Int) (k id : Nat) :
    (invertImage3Rows startY stopY k id).Nodup := by
  unfold invertImage3Rows invertImage3Region forUp
  simp only
  rw [forUpAux_eq_foldl, foldl_log, List.nil_append]
  exact upRange_nodup _ _

/-! ## The row-interleave assignment of `invertImage2` -/

/-- The number of rows worker `id` of `invertImage2` iterates. -/
theorem interleave_count (startY stopY : Int) (k id : Nat) (hk1 : 1 ≤ k) :
    ∃ m : Nat, m = (ceilDiv (stopY - startY - id) k).toNat ∧ m ≤ (stopY - startY).toNat ∧
      stopY ≤ startY + id + ((m * k : Nat) : Int) ∧
      (startY + id + ((m * k : Nat) : Int) < stopY + k ∨ m = 0) := by
  obtain ⟨h1, h2⟩ := ceilDiv_bounds (stopY - startY - id) k hk1
  have hk0 : (1 : Int) ≤ k := by exact_mod_cast hk1
  refine ⟨_, rfl, ?_, ?_, ?_⟩
  · by_contra hgt
    have h5 : 1 * (k : Int) ≤ ceilDiv (stopY - startY - id) k * k := by
      apply mul_le_mul_of_nonneg_right <;> omega
    have h3 : stopY - startY + 1 ≤ ceilDiv (stopY - startY - id) k := by omega
    have h4 : 0 ≤ stopY - startY := by omega
    have : (stopY - startY + 1) * k ≤ ceilDiv (stopY - startY - id) k * k := by
      apply mul_le_mul_of_nonneg_right <;> omega
    have : (stopY - startY) * 1 ≤ (stopY - startY) * k := by
      apply mul_le_mul_of_nonneg_left <;> omega
    linarith
  · by_cases hc : 0 ≤ ceilDiv (stopY - startY - id) k
    · push_cast
      rw [Int.toNat_of_nonneg hc]
      omega
    · have : ceilDiv (stopY - startY - id) k * k ≤ (-1) * k := by
        apply mul_le_mul_of_nonneg_right <;> omega
      have e : (ceilDiv (stopY - startY - id) k).toNat = 0 := by omega
      rw [e]
      simp only [Nat.zero_mul, Nat.cast_zero, add_zero]
      omega
  · by_cases hc : 1 ≤ ceilDiv (stopY - startY - id) k
    · left
      push_cast
      rw [Int.toNat_of_nonneg (by omega)]
      omega
    · right
      omega

/-- Without overflow and with enough fuel, worker `id` of `invertImage2` runs its row body
on `START_Y + id, START_Y + id + k, ...`, as many of them as lie below `STOP_Y`. -/
theorem invertImage2Region_eq {σ : Type} (rowBody : Int → σ → σ) (startY stopY : Int)
    (k id fuel : Nat) (s : σ) (hk1 : 1 ≤ k) (hk : k ≤ 1073741824)
    (hlo : -1073741824 ≤ startY) (hn : startY ≤ stopY) (hhi : stopY < 1073741824)
    (hid : id < k) (hfuel : (stopY - startY).toNat ≤ fuel) :
    invertImage2Region rowBody startY stopY k id fuel s
      = some (((List.range (ceilDiv (stopY - startY - id) k).toNat).map
          (fun j : Nat => startY + id + ((j * k : Nat) : Int))).foldl
            (fun acc t => rowBody t acc) s) := by
  obtain ⟨m, hm, hmf, h1, h2⟩ := interleave_count startY stopY k id hk1
  rw [← hm]
  unfold invertImage2Region
  rw [toInt_uadd_toUnsigned startY id (by omega) (by omega)]
  exact interleaveLoop_eq_foldl stopY k rowBody (by omega) m fuel (startY + id) s (by omega)
    (by omega) h1 h2

theorem mem_interleave (startY stopY : Int) (k id : Nat) (y : Int) (hk1 : 1 ≤ k)
    (hid : id < k) :
    y ∈ (List.range (ceilDiv (stopY - startY - id) k).toNat).map
        (fun j : Nat => startY + id + ((j * k : Nat) : Int)) ↔
      startY ≤ y ∧ y < stopY ∧ (y - startY) % (k : Int) = id := by
  obtain ⟨m, hm, _, h1, h2⟩ := interleave_count startY stopY k id hk1
  rw [← hm]
  have hk0 : (0 : Int) < k := by omega
  simp only [List.mem_map, List.mem_range]
  constructor
  · rintro ⟨j, hj, rfl⟩
    have hjm : (j + 1) * k ≤ m * k := Nat.mul_le_mul_right k hj
    have hjm2 : (((j + 1) * k : Nat) : Int) ≤ ((m * k : Nat) : Int) := by exact_mod_cast hjm
    rw [Nat.succ_mul] at hjm2
    push_cast at hjm2 h2 ⊢
    have hj0 : (0 : Int) ≤ (j : Int) * k := by positivity
    refine ⟨by omega, ?_, ?_⟩
    · omega
    · have : startY + id + (j : Int) * k - startY = id + (j : Int) * k := by ring
      rw [this, Int.add_mul_emod_self, Int.emod_eq_of_lt (by omega) (by omega)]
  · rintro ⟨hy1, hy2, hy3⟩
    have hd := Int.emod_add_ediv (y - startY) k
    have hq0 : 0 ≤ (y - startY) / (k : Int) := Int.ediv_nonneg (by omega) (by omega)
    obtain ⟨q, hq⟩ : ∃ q : Nat, (q : Int) = (y - startY) / (k : Int) :=
      ⟨((y - startY) / (k : Int)).toNat, Int.toNat_of_nonneg hq0⟩
    rw [← hq, hy3] at hd
    have hqk : (k : Int) * q = ((q * k : Nat) : Int) := by push_cast; ring
    rw [hqk] at hd
    refine ⟨q, ?_, by omega⟩
    by_contra hge
    have hmq : m * k ≤ q * k := Nat.mul_le_mul_right k (by omega)
    have : ((m * k : Nat) : Int) ≤ ((q * k : Nat) : Int) := by exact_mod_cast hmq
    omega

/-! ## Passes as paintings -/

theorem Paints.of_iff {g : Int → Int → ColorInt} {W W2 : Int → Int → Prop}
    {F : Background → Background} (h : Paints g W F) (hW : ∀ u v, W u v ↔ W2 u v) :
    Paints g W2 F :=
  ⟨fun bg u v hw => h.hit bg u v ((hW u v).2 hw),
   fun bg u v hw => h.miss bg u v (fun hw2 => hw ((hW u v).1 hw2))⟩

theorem paints_drawPixel (g : Int → Int → ColorInt) (x y : Int) (c : ColorInt)
    (hc : g x y = c) :
    Paints g (fun u v => u = x ∧ v = y) (fun bg => bg.drawPixel x y c) := by
  constructor
  · rintro bg u v ⟨rfl, rfl⟩
    simp [Background.drawPixel, hc]
  · intro bg u v hw
    simp only [Background.drawPixel]
    rw [if_neg hw]

theorem paints_foldl {α : Type} (g : Int → Int → ColorInt) (W : α → Int → Int → Prop)
    (body : α → Background → Background) (l : List α)
    (hb : ∀ a, a ∈ l → Paints g (W a) (body a)) :
    Paints g (fun u v => ∃ a, a ∈ l ∧ W a u v)
      (fun bg => l.foldl (fun acc a => body a acc) bg) := by
  induction l using List.reverseRecOn with
  | nil =>
    constructor
    · rintro bg u v ⟨a, ha, _⟩
      simp at ha
    · intro bg u v _
      rfl
  | append_singleton l a ih =>
    have ha : Paints g (W a) (body a) := hb a (by simp)
    have ih := ih (fun b hbl => hb b (by simp [hbl]))
    constructor
    · rintro bg u v ⟨b, hb1, hb2⟩
      simp only [List.foldl_append, List.foldl_cons, List.foldl_nil]
      by_cases hwa : W a u v
      · exact ha.hit _ u v hwa
      · rw [ha.miss _ u v hwa]
        apply ih.hit
        rcases List.mem_append.1 hb1 with h | h
        · exact ⟨b, h, hb2⟩
        · simp only [List.mem_singleton] at h
          subst h
          exact absurd hb2 hwa
    · intro bg u v hw
      simp only [List.foldl_append, List.foldl_cons, List.foldl_nil]
      rw [ha.miss _ u v (fun h => hw ⟨a, by simp, h⟩)]
      exact ih.miss bg u v (fun ⟨b, hb1, hb2⟩ => hw ⟨b, by simp [hb1], hb2⟩)

theorem paints_forUp (g : Int → Int → ColorInt) (W : Int → Int → Int → Prop)
    (body : Int → Background → Background) (hb : ∀ t, Paints g (W t) (body t)) (a b : Int) :
    Paints g (fun u v => ∃ t, a ≤ t ∧ t < b ∧ W t u v) (forUp a b body) := by
  have h := paints_foldl g W body
    ((List.range (b - a).toNat).map (fun j : Nat => a + (j : Int))) (fun t _ => hb t)
  have e : (fun bg => ((List.range (b - a).toNat).map (fun j : Nat => a + (j : Int))).foldl
      (fun acc t => body t acc) bg) = forUp a b body := by
    funext bg
    unfold forUp
    rw [forUpAux_eq_foldl]
  rw [e] at h
  apply h.of_iff
  intro u v
  constructor
  · rintro ⟨t, ht, hw⟩
    rw [mem_upRange] at ht
    exact ⟨t, ht.1, by omega, hw⟩
  · rintro ⟨t, h1, h2, hw⟩
    exact ⟨t, (mem_upRange _ _ _).2 ⟨h1, by omega⟩, hw⟩

theorem paints_ite (g : Int → Int → ColorInt) (W : Int → Int → Prop)
    (F : Background → Background) (c : Prop) [Decidable c] (h : Paints g W F) :
    Paints g (fun u v => c ∧ W u v) (fun bg => if c then F bg else bg) := by
  by_cases hc : c
  · simp only [hc, if_true, true_and]
    exact h
  · simp only [hc, if_false, false_and]
    exact ⟨fun _ _ _ hf => hf.elim, fun _ _ _ _ => rfl⟩

theorem paints_ompParallel (g : Int → Int → ColorInt) (W : Nat → Int → Int → Prop)
    (region : Nat → Background → Background) (k : Nat)
    (hb : ∀ id, id < k → Paints g (W id) (region id)) :
    Paints g (fun u v => ∃ id, id < k ∧ W id u v) (ompParallel k region) := by
  have h := paints_foldl g W region (List.range k) (fun id hid => hb id (List.mem_range.1 hid))
  apply Paints.of_iff h
  intro u v
  simp only [List.mem_range]

theorem paints_ompParallelFor (g : Int → Int → ColorInt) (W : Int → Int → Int → Prop)
    (body : Int → Background → Background) (hb : ∀ t, Paints g (W t) (body t))
    (k : Nat) (hk1 : 1 ≤ k) (schedule : Int → Nat) (a b : Int) :
    Paints g (fun u v => ∃ t, a ≤ t ∧ t < b ∧ W t u v)
      (ompParallelFor k schedule a b body) := by
  have h := paints_ompParallel g
    (fun id u v => ∃ t, a ≤ t ∧ t < b ∧ (schedule t % k = id ∧ W t u v))
    (fun id acc =>
      forUp a b (fun y bg => if schedule y % k = id then body y bg else bg) acc) k
    (fun id _ => paints_forUp g (fun t u v => schedule t % k = id ∧ W t u v) _
      (fun t => paints_ite g (W t) (body t) (schedule t % k = id) (hb t)) a b)
  apply Paints.of_iff h
  intro u v
  constructor
  · rintro ⟨id, _, t, h1, h2, _, hw⟩
    exact ⟨t, h1, h2, hw⟩
  · rintro ⟨t, h1, h2, hw⟩
    exact ⟨schedule t % k, Nat.mod_lt _ (by omega), t, h1, h2, rfl, hw⟩

theorem ompParallelFuel_eq {σ : Type} (k : Nat) (region : Nat → σ → Option σ)
    (total : Nat → σ → σ) (h : ∀ id, id < k → ∀ s, region id s = some (total id s)) (s : σ) :
    ompParallelFuel k region s = some (ompParallel k total s) := by
  unfold ompParallelFuel ompParallel
  have key : ∀ (l : List Nat), (∀ id, id ∈ l → id < k) → ∀ s,
      l.foldlM (fun acc id => region id acc) s
        = some (l.foldl (fun acc id => total id acc) s) := by
    intro l
    induction l with
    | nil => intro _ s; rfl
    | cons a l ih =>
      intro hl s
      rw [List.foldlM_cons, h a (hl a (by simp)) s]
      simp only [List.foldl_cons]
      exact ih (fun id hid => hl id (by simp [hid])) _
  exact key _ (fun id hid => List.mem_range.1 hid) s

theorem paints_unique {g : Int → Int → ColorInt} {W : Int → Int → Prop}
    {F G : Background → Background} (hF : Paints g W F) (hG : Paints g W G)
    (bg : Background) : F bg = G bg := by
  have h : (F bg).pixel = (G bg).pixel := by
    funext u v
    by_cases hw : W u v
    · rw [hF.hit bg u v hw, hG.hit bg u v hw]
    · rw [hF.miss bg u v hw, hG.miss bg u v hw]
  cases hf : F bg
  cases hg : G bg
  rw [hf, hg] at h
  simp only at h
  rw [h]

/-- The order in which the workers of a team run does not matter: a team whose regions
paint `g` leaves the same store whatever the order of the thread ids. -/
theorem ompParallel_order_irrelevant (g : Int → Int → ColorInt) (W : Nat → Int → Int → Prop)
    (region : Nat → Background → Background) (k : Nat)
    (hb : ∀ id, id < k → Paints g (W id) (region id)) (order : List Nat)
    (hperm : order.Perm (List.range k)) (bg : Background) :
    order.foldl (fun acc id => region id acc) bg = ompParallel k region bg := by
  have h1 := paints_foldl g W region order
    (fun id hid => hb id (List.mem_range.1 (hperm.mem_iff.1 hid)))
  have h2 := paints_ompParallel g W region k hb
  have h3 : Paints g (fun u v => ∃ id, id < k ∧ W id u v)
      (fun bg => order.foldl (fun acc id => region id acc) bg) := by
    apply Paints.of_iff h1
    intro u v
    constructor
    · rintro ⟨a, ha, hw⟩
      exact ⟨a, List.mem_range.1 (hperm.mem_iff.1 ha), hw⟩
    · rintro ⟨a, ha, hw⟩
      exact ⟨a, hperm.mem_iff.2 (List.mem_range.2 ha), hw⟩
  exact paints_unique h3 h2 bg

theorem window_bounds (H : Int) (h0 : 0 ≤ H) (h1 : H < 2147483648) :
    -1073741824 ≤ START_Y H ∧ START_Y H ≤ STOP_Y H ∧ STOP_Y H < 1073741824 := by
  unfold START_Y STOP_Y
  rw [Int.neg_tdiv, Int.tdiv_eq_ediv h0 (by decide)]
  omega

theorem paints_invertRow (background0 : Background) (startX stopX y : Int) :
    Paints (fun u v => invertColor (background0.getPixel u v))
      (fun u v => startX ≤ u ∧ u < stopX ∧ v = y) (invertRow background0 startX stopX y) := by
  have h := paints_forUp (fun u v => invertColor (background0.getPixel u v))
    (fun t u v => u = t ∧ v = y)
    (fun x bg => bg.drawPixel x y (invertColor (background0.getPixel x y)))
    (fun t => paints_drawPixel _ t y _ rfl) startX stopX
  apply Paints.of_iff h
  intro u v
  constructor
  · rintro ⟨t, h1, h2, rfl, rfl⟩
    exact ⟨h1, h2, rfl⟩
  · rintro ⟨h1, h2, rfl⟩
    exact ⟨u, h1, h2, rfl, rfl⟩

theorem paints_flipVerticalRow (background0 : Background) (startX stopX startY stopY y : Int) :
    Paints (fun u v => background0.getPixel u (startY + stopY - 1 - v))
      (fun u v => startX ≤ u ∧ u < stopX ∧ v = stopY - 1 - (y - startY))
      (flipVerticalRow background0 startX stopX startY stopY y) := by
  have h := paints_forUp (fun u v => background0.getPixel u (startY + stopY - 1 - v))
    (fun t u v => u = t ∧ v = stopY - 1 - (y - startY))
    (fun x bg => bg.drawPixel (flipVerticalDest startY stopY (x, y)).1
        (flipVerticalDest startY stopY (x, y)).2 (background0.getPixel x y))
    (fun t => paints_drawPixel _ _ _ _ (by
      congr 1
      ring)) startX stopX
  apply Paints.of_iff h
  intro u v
  constructor
  · rintro ⟨t, h1, h2, rfl, rfl⟩
    exact ⟨h1, h2, rfl⟩
  · rintro ⟨h1, h2, rfl⟩
    exact ⟨u, h1, h2, rfl, rfl⟩

theorem paints_flipHorizontalRow (background0 : Background) (startX stopX y : Int) :
    Paints (fun u v => background0.getPixel (startX + stopX - 1 - u) v)
      (fun u v => startX ≤ u ∧ u < stopX ∧ v = y)
      (flipHorizontalRow background0 startX stopX y) := by
  have h := paints_forUp (fun u v => background0.getPixel (startX + stopX - 1 - u) v)
    (fun t u v => u = stopX - 1 - (t - startX) ∧ v = y)
    (fun x bg => bg.drawPixel (flipHorizontalDest startX stopX (x, y)).1
        (flipHorizontalDest startX stopX (x, y)).2 (background0.getPixel x y))
    (fun t => paints_drawPixel _ _ _ _ (by
      congr 1
      ring)) startX stopX
  apply Paints.of_iff h
  intro u v
  constructor
  · rintro ⟨t, h1, h2, rfl, rfl⟩
    exact ⟨by omega, by omega, rfl⟩
  · rintro ⟨h1, h2, rfl⟩
    exact ⟨startX + stopX - 1 - u, by omega, by omega, by omega, rfl⟩

theorem paints_invertImage (background0 : Background) (WIN_WIDTH WIN_HEIGHT : Int)
    (k : Nat) (hk1 : 1 ≤ k) (schedule : Int → Nat) :
    Paints (fun u v => invertColor (background0.getPixel u v)) (InGrid WIN_WIDTH WIN_HEIGHT)
      (fun bg => invertImage background0 bg WIN_WIDTH WIN_HEIGHT k schedule) := by
  have h := paints_ompParallelFor _ _ _
    (fun t => paints_invertRow background0 (START_X WIN_WIDTH) (STOP_X WIN_WIDTH) t)
    k hk1 schedule (START_Y WIN_HEIGHT) (STOP_Y WIN_HEIGHT)
  apply Paints.of_iff h
  intro u v
  unfold InGrid
  constructor
  · rintro ⟨t, h1, h2, h3, h4, rfl⟩
    exact ⟨h3, h4, h1, h2⟩
  · rintro ⟨h3, h4, h1, h2⟩
    exact ⟨v, h1, h2, h3, h4, rfl⟩

theorem paints_flipVertical (background0 : Background) (WIN_WIDTH WIN_HEIGHT : Int)
    (k : Nat) (hk1 : 1 ≤ k) (schedule : Int → Nat) :
    Paints (fun u v => background0.getPixel u (START_Y WIN_HEIGHT + STOP_Y WIN_HEIGHT - 1 - v))
      (InGrid WIN_WIDTH WIN_HEIGHT)
      (fun bg => flipVertical background0 bg WIN_WIDTH WIN_HEIGHT k schedule) := by
  have h := paints_ompParallelFor _ _ _
    (fun t => paints_flipVerticalRow background0 (START_X WIN_WIDTH) (STOP_X WIN_WIDTH)
      (START_Y WIN_HEIGHT) (STOP_Y WIN_HEIGHT) t)
    k hk1 schedule (START_Y WIN_HEIGHT) (STOP_Y WIN_HEIGHT)
  apply Paints.of_iff h
  intro u v
  unfold InGrid
  constructor
  · rintro ⟨t, h1, h2, h3, h4, rfl⟩
    exact ⟨h3, h4, by omega, by omega⟩
  · rintro ⟨h3, h4, h1, h2⟩
    exact ⟨START_Y WIN_HEIGHT + STOP_Y WIN_HEIGHT - 1 - v, by omega, by omega, h3, h4, by omega⟩

theorem paints_flipHorizontal (background0 : Background) (WIN_WIDTH WIN_HEIGHT : Int)
    (k : Nat) (hk1 : 1 ≤ k) (schedule : Int → Nat) :
    Paints (fun u v => background0.getPixel (START_X WIN_WIDTH + STOP_X WIN_WIDTH - 1 - u) v)
      (InGrid WIN_WIDTH WIN_HEIGHT)
      (fun bg => flipHorizontal background0 bg WIN_WIDTH WIN_HEIGHT k schedule) := by
  have h := paints_ompParallelFor _ _ _
    (fun t => paints_flipHorizontalRow background0 (START_X WIN_WIDTH) (STOP_X WIN_WIDTH) t)
    k hk1 schedule (START_Y WIN_HEIGHT) (STOP_Y WIN_HEIGHT)
  apply Paints.of_iff h
  intro u v
  unfold InGrid
  constructor
  · rintro ⟨t, h1, h2, h3, h4, rfl⟩
    exact ⟨h3, h4, h1, h2⟩
  · rintro ⟨h3, h4, h1, h2⟩
    exact ⟨v, h1, h2, h3, h4, rfl⟩

/-- Without overflow, `invertImage3` paints the inverse of the source on every row some
worker iterates, in the columns of the window. -/
theorem paints_invertImage3 (background0 : Background) (WIN_WIDTH WIN_HEIGHT : Int)
    (k : Nat) (hk1 : 1 ≤ k) (hk : k ≤ 1073741824) (hH0 : 0 ≤ WIN_HEIGHT)
    (hH : WIN_HEIGHT < 2147483648) :
    Paints (fun u v => invertColor (background0.getPixel u v))
      (fun u v => START_X WIN_WIDTH ≤ u ∧ u < STOP_X WIN_WIDTH ∧
        ∃ id, id < k ∧ v ∈ invertImage3Rows (START_Y WIN_HEIGHT) (STOP_Y WIN_HEIGHT) k id)
      (fun bg => invertImage3 background0 bg WIN_WIDTH WIN_HEIGHT k) := by
  obtain ⟨b1, b2, b3⟩ := window_bounds WIN_HEIGHT hH0 hH
  have h := paints_ompParallel (fun u v => invertColor (background0.getPixel u v))
    (fun id u v => START_X WIN_WIDTH ≤ u ∧ u < STOP_X WIN_WIDTH ∧
      v ∈ invertImage3Rows (START_Y WIN_HEIGHT) (STOP_Y WIN_HEIGHT) k id)
    (fun id bg =>
      invertImage3Region (invertRow background0 (START_X WIN_WIDTH) (STOP_X WIN_WIDTH))
        (START_Y WIN_HEIGHT) (STOP_Y WIN_HEIGHT) k id bg) k
    (by
      intro id hid
      have e : (fun bg => invertImage3Region
          (invertRow background0 (START_X WIN_WIDTH) (STOP_X WIN_WIDTH))
          (START_Y WIN_HEIGHT) (STOP_Y WIN_HEIGHT) k id bg) = _ :=
        funext (fun bg => invertImage3Region_eq _ _ _ k id bg hk1 hk b1 b2 b3 hid)
      beta_reduce
      rw [e]
      have h := paints_forUp _ _ _
        (fun t => paints_invertRow background0 (START_X WIN_WIDTH) (STOP_X WIN_WIDTH) t)
        (START_Y WIN_HEIGHT + ((id * chunkSize (START_Y WIN_HEIGHT) (STOP_Y WIN_HEIGHT) k : Nat)
          : Int))
        (if id + 1 < k then START_Y WIN_HEIGHT
            + (((id + 1) * chunkSize (START_Y WIN_HEIGHT) (STOP_Y WIN_HEIGHT) k : Nat) : Int)
          else STOP_Y WIN_HEIGHT)
      apply Paints.of_iff h
      intro u v
      rw [mem_invertImage3Rows _ _ _ _ _ hk1 hk b1 b2 b3 hid]
      constructor
      · rintro ⟨t, h1, h2, h3, h4, rfl⟩
        exact ⟨h3, h4, h1, h2⟩
      · rintro ⟨h3, h4, h1, h2⟩
        exact ⟨v, h1, h2, h3, h4, rfl⟩)
  apply Paints.of_iff h
  intro u v
  constructor
  · rintro ⟨id, hid, h1, h2, h3⟩
    exact ⟨h1, h2, id, hid, h3⟩
  · rintro ⟨h1, h2, id, hid, h3⟩
    exact ⟨id, hid, h1, h2, h3⟩

/-- Without overflow and with enough fuel, `invertImage2` returns, and it paints the
inverse of the source on exactly the cells of the window. -/
theorem paints_invertImage2 (background0 : Background) (WIN_WIDTH WIN_HEIGHT : Int)
    (k fuel : Nat) (hk1 : 1 ≤ k) (hk : k ≤ 1073741824) (hH0 : 0 ≤ WIN_HEIGHT)
    (hH : WIN_HEIGHT < 2147483648)
    (hfuel : (STOP_Y WIN_HEIGHT - START_Y WIN_HEIGHT).toNat ≤ fuel) :
    ∃ F : Background → Background,
      (∀ bg, invertImage2 background0 bg WIN_WIDTH WIN_HEIGHT k fuel = some (F bg)) ∧
      Paints (fun u v => invertColor (background0.getPixel u v))
        (InGrid WIN_WIDTH WIN_HEIGHT) F := by
  obtain ⟨b1, b2, b3⟩ := window_bounds WIN_HEIGHT hH0 hH
  refine ⟨ompParallel k (fun id bg =>
    ((List.range (ceilDiv (STOP_Y WIN_HEIGHT - START_Y WIN_HEIGHT - id) k).toNat).map
      (fun j : Nat => START_Y WIN_HEIGHT + id + ((j * k : Nat) : Int))).foldl
        (fun acc t => invertRow background0 (START_X WIN_WIDTH) (STOP_X WIN_WIDTH) t acc) bg),
    ?_, ?_⟩
  · intro bg
    unfold invertImage2
    apply ompParallelFuel_eq
    intro id hid s
    exact invertImage2Region_eq _ _ _ k id fuel s hk1 hk b1 b2 b3 hid hfuel
  · have h := paints_ompParallel (fun u v => invertColor (background0.getPixel u v))
      (fun id u v => ∃ t, t ∈ (List.range
          (ceilDiv (STOP_Y WIN_HEIGHT - START_Y WIN_HEIGHT - id) k).toNat).map
            (fun j : Nat => START_Y WIN_HEIGHT + id + ((j * k : Nat) : Int)) ∧
        (START_X WIN_WIDTH ≤ u ∧ u < STOP_X WIN_WIDTH ∧ v = t))
      (fun id bg =>
        ((List.range (ceilDiv (STOP_Y WIN_HEIGHT - START_Y WIN_HEIGHT - id) k).toNat).map
          (fun j : Nat => START_Y WIN_HEIGHT + id + ((j * k : Nat) : Int))).foldl
            (fun acc t => invertRow background0 (START_X WIN_WIDTH) (STOP_X WIN_WIDTH) t acc)
            bg) k
      (fun id _ => paints_foldl _ _ _ _
        (fun t _ => paints_invertRow background0 (START_X WIN_WIDTH) (STOP_X WIN_WIDTH) t))
    apply Paints.of_iff h
    intro u v
    unfold InGrid
    constructor
    · rintro ⟨id, hid, t, ht, h3, h4, rfl⟩
      rw [mem_interleave _ _ _ _ _ hk1 hid] at ht
      exact ⟨h3, h4, ht.1, ht.2.1⟩
    · rintro ⟨h3, h4, h1, h2⟩
      have hk0 : (0 : Int) < k := by omega
      have hm0 := Int.emod_nonneg (v - START_Y WIN_HEIGHT) (ne_of_gt hk0)
      have hm1 := Int.emod_lt_of_pos (v - START_Y WIN_HEIGHT) hk0
      refine ⟨((v - START_Y WIN_HEIGHT) % (k : Int)).toNat, by omega, v, ?_, h3, h4, rfl⟩
      rw [mem_interleave _ _ _ _ _ hk1 (by omega)]
      exact ⟨h1, h2, by omega⟩

/-- Every row of the range is iterated by some worker of `invertImage3`. -/
theorem invertImage3_rows_cover (startY stopY : Int) (k : Nat) (hk1 : 1 ≤ k)
    (hk : k ≤ 1073741824) (hlo : -1073741824 ≤ startY) (hhi : stopY < 1073741824)
    (y : Int) (hy1 : startY ≤ y) (hy2 : y < stopY) :
    ∃ id, id < k ∧ y ∈ invertImage3Rows startY stopY k id := by
  obtain ⟨id, hid, h1, h2⟩ := chunk_cover startY stopY k y hk1 hy1 hy2 (by omega)
  exact ⟨id, hid, (mem_invertImage3Rows _ _ _ _ _ hk1 hk hlo (by omega) hhi hid).2 ⟨h1, h2⟩⟩

/-- When the chunks of the workers before the last one fit into the range,
`(k - 1) * chunkSize ≤ STOP_Y - START_Y`, no worker of `invertImage3` leaves the range. -/
theorem invertImage3_rows_within (startY stopY : Int) (k id : Nat) (y : Int) (hk1 : 1 ≤ k)
    (hk : k ≤ 1073741824) (hlo : -1073741824 ≤ startY) (hn : startY ≤ stopY)
    (hhi : stopY < 1073741824) (hid : id < k)
    (hfit : (((k - 1) * chunkSize startY stopY k : Nat) : Int) ≤ stopY - startY)
    (hy : y ∈ invertImage3Rows startY stopY k id) : startY ≤ y ∧ y < stopY := by
  rw [mem_invertImage3Rows _ _ _ _ _ hk1 hk hlo hn hhi hid] at hy
  obtain ⟨h1, h2⟩ := hy
  have h0 : (0 : Int) ≤ ((id * chunkSize startY stopY k : Nat) : Int) := Int.natCast_nonneg _
  refine ⟨by omega, ?_⟩
  by_cases hlast : id + 1 < k
  · rw [if_pos hlast] at h2
    have h3 : (id + 1) * chunkSize startY stopY k ≤ (k - 1) * chunkSize startY stopY k :=
      Nat.mul_le_mul_right _ (by omega)
    have h4 : (((id + 1) * chunkSize startY stopY k : Nat) : Int)
        ≤ (((k - 1) * chunkSize startY stopY k : Nat) : Int) := by exact_mod_cast h3
    omega
  · rw [if_neg hlast] at h2
    exact h2

/-- When the chunks of the workers before the last one fit into the range, `invertImage3`
paints the inverse of the source on exactly the cells of the window. -/
theorem paints_invertImage3_exact (background0 : Background) (WIN_WIDTH WIN_HEIGHT : Int)
    (k : Nat) (hk1 : 1 ≤ k) (hk : k ≤ 1073741824) (hH0 : 0 ≤ WIN_HEIGHT)
    (hH : WIN_HEIGHT < 2147483648)
    (hfit : (((k - 1) * chunkSize (START_Y WIN_HEIGHT) (STOP_Y WIN_HEIGHT) k : Nat) : Int)
      ≤ STOP_Y WIN_HEIGHT - START_Y WIN_HEIGHT) :
    Paints (fun u v => invertColor (background0.getPixel u v)) (InGrid WIN_WIDTH WIN_HEIGHT)
      (fun bg => invertImage3 background0 bg WIN_WIDTH WIN_HEIGHT k) := by
  obtain ⟨b1, b2, b3⟩ := window_bounds WIN_HEIGHT hH0 hH
  apply Paints.of_iff (paints_invertImage3 background0 WIN_WIDTH WIN_HEIGHT k hk1 hk hH0 hH)
  intro u v
  unfold InGrid
  constructor
  · rintro ⟨h1, h2, id, hid, hmem⟩
    obtain ⟨h3, h4⟩ := invertImage3_rows_within _ _ k id v hk1 hk b1 b2 b3 hid hfit hmem
    exact ⟨h1, h2, h3, h4⟩
  · rintro ⟨h1, h2, h3, h4⟩
    obtain ⟨id, hid, hmem⟩ := invertImage3_rows_cover _ _ k hk1 hk b1 b3 v h3 h4
    exact ⟨h1, h2, id, hid, hmem⟩

/-! ## The claims -/

/-- C1: in `invertImage3`, for every team of `k ≥ 1` workers and every row range (rows and
team size within the 32-bit arithmetic of the source: rows in `[-2^30, 2^30)`, `k ≤ 2^30`),
every row `y` with `START_Y ≤ y < STOP_Y` is iterated by exactly one worker `id < k`, and
no worker iterates a row twice: the equal-chunk assignment leaves no gap among the rows of
the range and gives none of them to two workers. -/
theorem invertImage3_rows_partition (startY stopY : Int) (numThreads : Nat)
    (hk1 : 1 ≤ numThreads) (hk : numThreads ≤ 1073741824)
    (hlo : -1073741824 ≤ startY) (hhi : stopY < 1073741824)
    (y : Int) (hy1 : startY ≤ y) (hy2 : y < stopY) :
    (∃! id, id < numThreads ∧ y ∈ invertImage3Rows startY stopY numThreads id) ∧
      ∀ id, id < numThreads → (invertImage3Rows startY stopY numThreads id).Nodup := by
  have hn : startY ≤ stopY := by omega
  refine ⟨?_, fun id _ => invertImage3Rows_nodup _ _ _ _⟩
  obtain ⟨id, hid, h1, h2⟩ := chunk_cover startY stopY numThreads y hk1 hy1 hy2 (by omega)
  refine ⟨id, ⟨hid, (mem_invertImage3Rows _ _ _ _ _ hk1 hk hlo hn hhi hid).2 ⟨h1, h2⟩⟩, ?_⟩
  rintro id2 ⟨hid2, hmem⟩
  rw [mem_invertImage3Rows _ _ _ _ _ hk1 hk hlo hn hhi hid2] at hmem
  rcases Nat.lt_trichotomy id2 id with hlt | heq | hgt
  · exact (chunk_disjoint startY stopY numThreads _ y id2 id hlt hid hmem.2 h1).elim
  · exact heq
  · exact (chunk_disjoint startY stopY numThreads _ y id id2 hgt hid2 h2 hmem.1).elim

theorem invertImage3_rows_partition_witness :
    (1 ≤ 8 ∧ 8 ≤ 1073741824 ∧ (-1073741824 : Int) ≤ -5 ∧ (5 : Int) < 1073741824 ∧
      (-5 : Int) ≤ 4 ∧ (4 : Int) < 5) ∧
    ((∃! id, id < 8 ∧ (4 : Int) ∈ invertImage3Rows (-5) 5 8 id) ∧
      ∀ id, id < 8 → (invertImage3Rows (-5) 5 8 id).Nodup) :=
  ⟨by decide,
   invertImage3_rows_partition (-5) 5 8 (by decide) (by decide) (by decide) (by decide) 4
     (by decide) (by decide)⟩

/-- C2: the equal-chunk assignment of `invertImage3` on a window of 4 rows (`START_Y = -2`,
`STOP_Y = 2`) with 8 workers: there are fewer rows than workers, workers 0 to 3 take the
four rows of the window, and workers 4, 5 and 6, which have no row of the window left, still
iterate one row each, the rows 2, 3 and 4 at and beyond `STOP_Y`; only the last worker has
an empty assignment. On the 800 rows of the window of `main.cpp` (`STOP_Y = 400`) with 64
workers, worker 62 iterates the rows 406 to 418. -/
theorem invertImage3_rows_overshoot :
    (START_Y 4 = -2 ∧ STOP_Y 4 = 2 ∧
      (List.range 8).map (invertImage3Rows (START_Y 4) (STOP_Y 4) 8)
        = [[-2], [-1], [0], [1], [2], [3], [4], []]) ∧
    (STOP_Y 800 = 400 ∧
      invertImage3Rows (START_Y 800) (STOP_Y 800) 64 62
        = [406, 407, 408, 409, 410, 411, 412, 413, 414, 415, 416, 417, 418]) := by
  decide

/-- C3: in `invertImage2`, for every team of `k ≥ 1` workers and every row range (rows and
team size within the 32-bit arithmetic of the source, fuel for at least `STOP_Y - START_Y`
iterations), the row loop of worker `id` returns and has iterated exactly the rows
`START_Y + id, START_Y + id + k, START_Y + id + 2k, ...` that are below `STOP_Y`, in this
order; a row `y` is iterated by worker `id` if and only if `START_Y ≤ y < STOP_Y` and
`(y - START_Y) mod k = id`; so every row of the range is iterated by exactly one worker and
no row outside the range is iterated. -/
theorem invertImage2_rows_interleave (startY stopY : Int) (numThreads fuel : Nat)
    (hk1 : 1 ≤ numThreads) (hk : numThreads ≤ 1073741824)
    (hlo : -1073741824 ≤ startY) (hn : startY ≤ stopY) (hhi : stopY < 1073741824)
    (hfuel : (stopY - startY).toNat ≤ fuel) :
    (∀ id, id < numThreads → ∃ m : Nat,
      invertImage2Rows startY stopY numThreads id fuel
        = some ((List.range m).map (fun j : Nat => startY + id + (j : Int) * numThreads)) ∧
      (∀ j : Nat, j < m → startY + id + (j : Int) * numThreads < stopY) ∧
      stopY ≤ startY + id + (m : Int) * numThreads) ∧
    (∀ id, id < numThreads → ∀ y : Int,
      (∃ rows, invertImage2Rows startY stopY numThreads id fuel = some rows ∧ y ∈ rows) ↔
        (startY ≤ y ∧ y < stopY ∧ (y - startY) % (numThreads : Int) = id)) ∧
    (∀ y : Int, startY ≤ y → y < stopY →
      ∃! id, id < numThreads ∧
        ∃ rows, invertImage2Rows startY stopY numThreads id fuel = some rows ∧ y ∈ rows) := by
  have hrows : ∀ id, id < numThreads →
      invertImage2Rows startY stopY numThreads id fuel
        = some ((List.range (ceilDiv (stopY - startY - id) numThreads).toNat).map
            (fun j : Nat => startY + id + ((j * numThreads : Nat) : Int))) := by
    intro id hid
    unfold invertImage2Rows
    rw [invertImage2Region_eq _ _ _ _ _ _ _ hk1 hk hlo hn hhi hid hfuel, foldl_log,
      List.nil_append]
  have hiff : ∀ id, id < numThreads → ∀ y : Int,
      (∃ rows, invertImage2Rows startY stopY numThreads id fuel = some rows ∧ y ∈ rows) ↔
        (startY ≤ y ∧ y < stopY ∧ (y - startY) % (numThreads : Int) = id) := by
    intro id hid y
    rw [hrows id hid, ← mem_interleave startY stopY numThreads id y hk1 hid]
    constructor
    · rintro ⟨rows, hr, hy⟩
      rw [← Option.some.inj hr] at hy
      exact hy
    · intro hy
      exact ⟨_, rfl, hy⟩
  have hfun : ∀ id : Nat, (fun j : Nat => startY + id + ((j * numThreads : Nat) : Int))
      = (fun j : Nat => startY + id + (j : Int) * numThreads) := by
    intro id
    funext j
    push_cast
    rfl
  refine ⟨?_, hiff, ?_⟩
  · intro id hid
    obtain ⟨m, hm, _, h1, _⟩ := interleave_count startY stopY numThreads id hk1
    refine ⟨m, ?_, ?_, ?_⟩
    · rw [hrows id hid, ← hm, hfun]
    · intro j hj
      have hmem : startY + id + ((j * numThreads : Nat) : Int) ∈
          (List.range (ceilDiv (stopY - startY - id) numThreads).toNat).map
            (fun j : Nat => startY + id + ((j * numThreads : Nat) : Int)) := by
        rw [← hm]
        exact List.mem_map.2 ⟨j, List.mem_range.2 hj, rfl⟩
      have := ((mem_interleave startY stopY numThreads id _ hk1 hid).1 hmem).2.1
      push_cast at this
      exact this
    · push_cast at h1
      exact h1
  · intro y hy1 hy2
    have hk0 : (0 : Int) < numThreads := by omega
    have hm0 := Int.emod_nonneg (y - startY) (ne_of_gt hk0)
    have hm1 := Int.emod_lt_of_pos (y - startY) hk0
    refine ⟨((y - startY) % (numThreads : Int)).toNat, ⟨by omega, ?_⟩, ?_⟩
    · rw [hiff _ (by omega)]
      exact ⟨hy1, hy2, by omega⟩
    · rintro id ⟨hid, hmem⟩
      rw [hiff id hid] at hmem
      omega

theorem invertImage2_rows_interleave_witness :
    (1 ≤ 3 ∧ 3 ≤ 1073741824 ∧ (-1073741824 : Int) ≤ -5 ∧ (-5 : Int) ≤ 5 ∧
      (5 : Int) < 1073741824 ∧ ((5 : Int) - (-5)).toNat ≤ 10) ∧
    ((∀ id, id < 3 → ∃ m : Nat,
      invertImage2Rows (-5) 5 3 id 10
        = some ((List.range m).map (fun j : Nat => (-5 : Int) + id + (j : Int) * (3 : Nat))) ∧
      (∀ j : Nat, j < m → (-5 : Int) + id + (j : Int) * (3 : Nat) < 5) ∧
      (5 : Int) ≤ -5 + id + (m : Int) * (3 : Nat)) ∧
    (∀ id, id < 3 → ∀ y : Int,
      (∃ rows, invertImage2Rows (-5) 5 3 id 10 = some rows ∧ y ∈ rows) ↔
        ((-5 : Int) ≤ y ∧ y < 5 ∧ (y - (-5)) % ((3 : Nat) : Int) = id)) ∧
    (∀ y : Int, (-5 : Int) ≤ y → y < 5 →
      ∃! id, id < 3 ∧ ∃ rows, invertImage2Rows (-5) 5 3 id 10 = some rows ∧ y ∈ rows)) :=
  ⟨by decide,
   invertImage2_rows_interleave (-5) 5 3 10 (by decide) (by decide) (by decide) (by decide)
     (by decide) (by decide)⟩

/-- C4: each of the three inversion passes (`invertImage` under any split of the row loop
by the runtime, `invertImage2`, `invertImage3`), run by a team of `k ≥ 1` workers on any
source surface (window height a non-negative `int`, `k ≤ 2^30`, fuel for the rows of the
window), leaves at every coordinate `(x, y)` of the window the colour
`(255 - R, 255 - G, 255 - B)`, where `(R, G, B)` is the source pixel at `(x, y)`; and
`invertImage2` returns. -/
theorem invert_passes_pixel (background0 background1 : Background)
    (WIN_WIDTH WIN_HEIGHT : Int) (numThreads : Nat) (schedule : Int → Nat) (fuel : Nat)
    (hk1 : 1 ≤ numThreads) (hk : numThreads ≤ 1073741824) (hH0 : 0 ≤ WIN_HEIGHT)
    (hH : WIN_HEIGHT < 2147483648)
    (hfuel : (STOP_Y WIN_HEIGHT - START_Y WIN_HEIGHT).toNat ≤ fuel)
    (x y : Int) (hxy : InGrid WIN_WIDTH WIN_HEIGHT x y) :
    (invertImage background0 background1 WIN_WIDTH WIN_HEIGHT numThreads schedule).getPixel x y
        = ⟨255 - (background0.getPixel x y).R, 255 - (background0.getPixel x y).G,
            255 - (background0.getPixel x y).B⟩ ∧
    (∃ background2, invertImage2 background0 background1 WIN_WIDTH WIN_HEIGHT numThreads fuel
        = some background2 ∧
      background2.getPixel x y
        = ⟨255 - (background0.getPixel x y).R, 255 - (background0.getPixel x y).G,
            255 - (background0.getPixel x y).B⟩) ∧
    (invertImage3 background0 background1 WIN_WIDTH WIN_HEIGHT numThreads).getPixel x y
        = ⟨255 - (background0.getPixel x y).R, 255 - (background0.getPixel x y).G,
            255 - (background0.getPixel x y).B⟩ := by
  obtain ⟨b1, b2, b3⟩ := window_bounds WIN_HEIGHT hH0 hH
  refine ⟨?_, ?_, ?_⟩
  · exact (paints_invertImage background0 WIN_WIDTH WIN_HEIGHT numThreads hk1 schedule).hit
      background1 x y hxy
  · obtain ⟨F, hF, hP⟩ :=
      paints_invertImage2 background0 WIN_WIDTH WIN_HEIGHT numThreads fuel hk1 hk hH0 hH hfuel
    exact ⟨F background1, hF background1, hP.hit background1 x y hxy⟩
  · obtain ⟨hx1, hx2, hy1, hy2⟩ := hxy
    obtain ⟨id, hid, _⟩ :=
      (invertImage3_rows_cover (START_Y WIN_HEIGHT) (STOP_Y WIN_HEIGHT) numThreads
        hk1 hk b1 b3 y hy1 hy2)
    exact (paints_invertImage3 background0 WIN_WIDTH WIN_HEIGHT numThreads hk1 hk hH0 hH).hit
      background1 x y ⟨hx1, hx2, id, hid, ‹_›⟩

theorem invert_passes_pixel_witness :
    (InGrid 4 4 0 0 ∧ originSurface.getPixel 0 0 = ⟨10, 20, 30⟩) ∧
    ((invertImage originSurface blankCanvas 4 4 8 (fun y => y.toNat)).getPixel 0 0
        = ⟨245, 235, 225⟩ ∧
    (∃ background2, invertImage2 originSurface blankCanvas 4 4 8 4 = some background2 ∧
      background2.getPixel 0 0 = ⟨245, 235, 225⟩) ∧
    (invertImage3 originSurface blankCanvas 4 4 8).getPixel 0 0 = ⟨245, 235, 225⟩) :=
  ⟨by decide,
   invert_passes_pixel originSurface blankCanvas 4 4 8 (fun y => y.toNat) 4 (by decide)
     (by decide) (by decide) (by decide) (by decide) 0 0 (by decide)⟩

/-- C5: after `flipHorizontal`, run by any team of at least one worker under any split of
the row loop, for every coordinate `(x, y)` of the window the source pixel read at `(x, y)`
stands unchanged at the destination coordinate `(STOP_X - 1 - (x - START_X), y)`, and the
destination pixel at `(x, y)` is the source pixel at `(START_X + STOP_X - 1 - x, y)`. -/
theorem flipHorizontal_pixel (background0 background1 : Background)
    (WIN_WIDTH WIN_HEIGHT : Int) (numThreads : Nat) (schedule : Int → Nat)
    (hk1 : 1 ≤ numThreads) (x y : Int) (hxy : InGrid WIN_WIDTH WIN_HEIGHT x y) :
    (flipHorizontal background0 background1 WIN_WIDTH WIN_HEIGHT numThreads schedule).getPixel
        (STOP_X WIN_WIDTH - 1 - (x - START_X WIN_WIDTH)) y = background0.getPixel x y ∧
    (flipHorizontal background0 background1 WIN_WIDTH WIN_HEIGHT numThreads schedule).getPixel
        x y = background0.getPixel (START_X WIN_WIDTH + STOP_X WIN_WIDTH - 1 - x) y := by
  have hP := paints_flipHorizontal background0 WIN_WIDTH WIN_HEIGHT numThreads hk1 schedule
  obtain ⟨hx1, hx2, hy1, hy2⟩ := hxy
  constructor
  · have h := hP.hit background1 (STOP_X WIN_WIDTH - 1 - (x - START_X WIN_WIDTH)) y
      ⟨by omega, by omega, hy1, hy2⟩
    have e : START_X WIN_WIDTH + STOP_X WIN_WIDTH - 1
        - (STOP_X WIN_WIDTH - 1 - (x - START_X WIN_WIDTH)) = x := by ring
    rw [e] at h
    exact h
  · exact hP.hit background1 x y ⟨hx1, hx2, hy1, hy2⟩

theorem flipHorizontal_pixel_witness :
    (1 ≤ 2 ∧ InGrid 4 2 (-2) 0) ∧
    ((flipHorizontal lettersSurface blankCanvas 4 2 2 (fun y => y.toNat)).getPixel
        (STOP_X 4 - 1 - (-2 - START_X 4)) 0 = lettersSurface.getPixel (-2) 0 ∧
    (flipHorizontal lettersSurface blankCanvas 4 2 2 (fun y => y.toNat)).getPixel (-2) 0
        = lettersSurface.getPixel (START_X 4 + STOP_X 4 - 1 - (-2)) 0) :=
  ⟨by decide,
   flipHorizontal_pixel lettersSurface blankCanvas 4 2 2 (fun y => y.toNat) (by decide)
     (-2) 0 (by decide)⟩

/-- C6: after `flipVertical`, run by any team of at least one worker under any split of the
row loop, for every coordinate `(x, y)` of the window the source pixel read at `(x, y)`
stands unchanged at the destination coordinate `(x, STOP_Y - 1 - (y - START_Y))`, and the
destination pixel at `(x, y)` is the source pixel at `(x, START_Y + STOP_Y - 1 - y)`. -/
theorem flipVertical_pixel (background0 background1 : Background)
    (WIN_WIDTH WIN_HEIGHT : Int) (numThreads : Nat) (schedule : Int → Nat)
    (hk1 : 1 ≤ numThreads) (x y : Int) (hxy : InGrid WIN_WIDTH WIN_HEIGHT x y) :
    (flipVertical background0 background1 WIN_WIDTH WIN_HEIGHT numThreads schedule).getPixel
        x (STOP_Y WIN_HEIGHT - 1 - (y - START_Y WIN_HEIGHT)) = background0.getPixel x y ∧
    (flipVertical background0 background1 WIN_WIDTH WIN_HEIGHT numThreads schedule).getPixel
        x y = background0.getPixel x (START_Y WIN_HEIGHT + STOP_Y WIN_HEIGHT - 1 - y) := by
  have hP := paints_flipVertical background0 WIN_WIDTH WIN_HEIGHT numThreads hk1 schedule
  obtain ⟨hx1, hx2, hy1, hy2⟩ := hxy
  constructor
  · have h := hP.hit background1 x (STOP_Y WIN_HEIGHT - 1 - (y - START_Y WIN_HEIGHT))
      ⟨hx1, hx2, by omega, by omega⟩
    have e : START_Y WIN_HEIGHT + STOP_Y WIN_HEIGHT - 1
        - (STOP_Y WIN_HEIGHT - 1 - (y - START_Y WIN_HEIGHT)) = y := by ring
    rw [e] at h
    exact h
  · exact hP.hit background1 x y ⟨hx1, hx2, hy1, hy2⟩

theorem flipVertical_pixel_witness :
    rows2x4 lettersSurface
        = [[letter 1, letter 2, letter 3, letter 4], [letter 5, letter 6, letter 7, letter 8]] ∧
    rows2x4 (flipVertical lettersSurface blankCanvas 4 2 2 (fun y => y.toNat))
        = [[letter 5, letter 6, letter 7, letter 8], [letter 1, letter 2, letter 3, letter 4]] := by
  refine ⟨by decide, ?_⟩
  have h := fun x y hxy =>
    (flipVertical_pixel lettersSurface blankCanvas 4 2 2 (fun y => y.toNat) (by decide)
      x y hxy).2
  unfold rows2x4
  rw [h (-2) (-1) (by decide), h (-1) (-1) (by decide), h 0 (-1) (by decide),
    h 1 (-1) (by decide), h (-2) 0 (by decide), h (-1) 0 (by decide), h 0 0 (by decide),
    h 1 0 (by decide)]
  decide

/-- C7: for every window size, the destination-coordinate maps of `flipVertical`,
`(x, y) ↦ (x, STOP_Y - 1 - (y - START_Y))`, and of `flipHorizontal`,
`(x, y) ↦ (STOP_X - 1 - (x - START_X), y)`, each send every coordinate of the window to a
coordinate of the window, and every coordinate of the window is the destination of exactly
one coordinate of the window. -/
theorem flip_dest_bijective (WIN_WIDTH WIN_HEIGHT : Int) :
    ((∀ p : Int × Int, InGrid WIN_WIDTH WIN_HEIGHT p.1 p.2 →
        InGrid WIN_WIDTH WIN_HEIGHT
          (flipVerticalDest (START_Y WIN_HEIGHT) (STOP_Y WIN_HEIGHT) p).1
          (flipVerticalDest (START_Y WIN_HEIGHT) (STOP_Y WIN_HEIGHT) p).2) ∧
      (∀ q : Int × Int, InGrid WIN_WIDTH WIN_HEIGHT q.1 q.2 →
        ∃! p : Int × Int, InGrid WIN_WIDTH WIN_HEIGHT p.1 p.2 ∧
          flipVerticalDest (START_Y WIN_HEIGHT) (STOP_Y WIN_HEIGHT) p = q)) ∧
    ((∀ p : Int × Int, InGrid WIN_WIDTH WIN_HEIGHT p.1 p.2 →
        InGrid WIN_WIDTH WIN_HEIGHT
          (flipHorizontalDest (START_X WIN_WIDTH) (STOP_X WIN_WIDTH) p).1
          (flipHorizontalDest (START_X WIN_WIDTH) (STOP_X WIN_WIDTH) p).2) ∧
      (∀ q : Int × Int, InGrid WIN_WIDTH WIN_HEIGHT q.1 q.2 →
        ∃! p : Int × Int, InGrid WIN_WIDTH WIN_HEIGHT p.1 p.2 ∧
          flipHorizontalDest (START_X WIN_WIDTH) (STOP_X WIN_WIDTH) p = q)) := by
  unfold InGrid flipVerticalDest flipHorizontalDest
  generalize START_X WIN_WIDTH = sx
  generalize STOP_X WIN_WIDTH = ex
  generalize START_Y WIN_HEIGHT = sy
  generalize STOP_Y WIN_HEIGHT = ey
  refine ⟨⟨?_, ?_⟩, ⟨?_, ?_⟩⟩
  · rintro ⟨x, y⟩ ⟨h1, h2, h3, h4⟩
    exact ⟨h1, h2, by simp only; omega, by simp only; omega⟩
  · rintro ⟨u, v⟩ ⟨h1, h2, h3, h4⟩
    simp only at h1 h2 h3 h4
    refine ⟨(u, sy + ey - 1 - v), ⟨⟨h1, h2, by simp only; omega, by simp only; omega⟩, ?_⟩, ?_⟩
    · simp only [Prod.mk.injEq, true_and]
      omega
    · rintro ⟨x, y⟩ ⟨_, he⟩
      simp only [Prod.mk.injEq] at he ⊢
      omega
  · rintro ⟨x, y⟩ ⟨h1, h2, h3, h4⟩
    exact ⟨by simp only; omega, by simp only; omega, h3, h4⟩
  · rintro ⟨u, v⟩ ⟨h1, h2, h3, h4⟩
    simp only at h1 h2 h3 h4
    refine ⟨(sx + ex - 1 - u, v), ⟨⟨by simp only; omega, by simp only; omega, h3, h4⟩, ?_⟩, ?_⟩
    · simp only [Prod.mk.injEq, and_true]
      omega
    · rintro ⟨x, y⟩ ⟨_, he⟩
      simp only [Prod.mk.injEq] at he ⊢
      omega

/-- C8: for every surface and window size, a `flipHorizontal` pass over the output of a
`flipHorizontal` pass (each into a fresh destination, each by a team of at least one worker
under any split of the row loop) yields a surface equal to the original at every coordinate
of the window, and so does `flipVertical` applied twice. -/
theorem flip_twice (background0 canvas1 canvas2 : Background) (WIN_WIDTH WIN_HEIGHT : Int)
    (numThreads numThreads2 : Nat) (schedule schedule2 : Int → Nat)
    (hk1 : 1 ≤ numThreads) (hk2 : 1 ≤ numThreads2) (x y : Int)
    (hxy : InGrid WIN_WIDTH WIN_HEIGHT x y) :
    (flipHorizontal
        (flipHorizontal background0 canvas1 WIN_WIDTH WIN_HEIGHT numThreads schedule)
        canvas2 WIN_WIDTH WIN_HEIGHT numThreads2 schedule2).getPixel x y
      = background0.getPixel x y ∧
    (flipVertical
        (flipVertical background0 canvas1 WIN_WIDTH WIN_HEIGHT numThreads schedule)
        canvas2 WIN_WIDTH WIN_HEIGHT numThreads2 schedule2).getPixel x y
      = background0.getPixel x y := by
  obtain ⟨hx1, hx2, hy1, hy2⟩ := hxy
  constructor
  · have h2 := (paints_flipHorizontal
      (flipHorizontal background0 canvas1 WIN_WIDTH WIN_HEIGHT numThreads schedule)
      WIN_WIDTH WIN_HEIGHT numThreads2 hk2 schedule2).hit canvas2 x y ⟨hx1, hx2, hy1, hy2⟩
    have h1 := (paints_flipHorizontal background0 WIN_WIDTH WIN_HEIGHT numThreads hk1
      schedule).hit canvas1 (START_X WIN_WIDTH + STOP_X WIN_WIDTH - 1 - x) y
      ⟨by omega, by omega, hy1, hy2⟩
    have e : START_X WIN_WIDTH + STOP_X WIN_WIDTH - 1
        - (START_X WIN_WIDTH + STOP_X WIN_WIDTH - 1 - x) = x := by ring
    rw [e] at h1
    exact h2.trans h1
  · have h2 := (paints_flipVertical
      (flipVertical background0 canvas1 WIN_WIDTH WIN_HEIGHT numThreads schedule)
      WIN_WIDTH WIN_HEIGHT numThreads2 hk2 schedule2).hit canvas2 x y ⟨hx1, hx2, hy1, hy2⟩
    have h1 := (paints_flipVertical background0 WIN_WIDTH WIN_HEIGHT numThreads hk1
      schedule).hit canvas1 x (START_Y WIN_HEIGHT + STOP_Y WIN_HEIGHT - 1 - y)
      ⟨hx1, hx2, by omega, by omega⟩
    have e : START_Y WIN_HEIGHT + STOP_Y WIN_HEIGHT - 1
        - (START_Y WIN_HEIGHT + STOP_Y WIN_HEIGHT - 1 - y) = y := by ring
    rw [e] at h1
    exact h2.trans h1

theorem flip_twice_witness :
    (1 ≤ 2 ∧ 1 ≤ 3 ∧ InGrid 4 2 (-2) (-1)) ∧
    ((flipHorizontal (flipHorizontal lettersSurface blankCanvas 4 2 2 (fun y => y.toNat))
        blankCanvas 4 2 3 (fun _ => 0)).getPixel (-2) (-1) = lettersSurface.getPixel (-2) (-1) ∧
    (flipVertical (flipVertical lettersSurface blankCanvas 4 2 2 (fun y => y.toNat))
        blankCanvas 4 2 3 (fun _ => 0)).getPixel (-2) (-1) = lettersSurface.getPixel (-2) (-1)) :=
  ⟨by decide,
   flip_twice lettersSurface blankCanvas blankCanvas 4 2 2 3 (fun y => y.toNat) (fun _ => 0)
     (by decide) (by decide) (-2) (-1) (by decide)⟩

/-- C9: for every surface, an inversion pass over the output of an inversion pass (each
into a fresh destination; `invertImage`, `invertImage2` and `invertImage3` alike, window
height a non-negative `int`, teams of `1 ≤ k ≤ 2^30` workers, fuel for the rows of the
window) yields a surface equal to the original at every coordinate of the window; no bound
on the channels is needed. -/
theorem invert_twice (background0 canvas1 canvas2 : Background) (WIN_WIDTH WIN_HEIGHT : Int)
    (numThreads numThreads2 : Nat) (schedule schedule2 : Int → Nat) (fuel : Nat)
    (hk1 : 1 ≤ numThreads) (hk : numThreads ≤ 1073741824)
    (hk2 : 1 ≤ numThreads2) (hk3 : numThreads2 ≤ 1073741824)
    (hH0 : 0 ≤ WIN_HEIGHT) (hH : WIN_HEIGHT < 2147483648)
    (hfuel : (STOP_Y WIN_HEIGHT - START_Y WIN_HEIGHT).toNat ≤ fuel)
    (x y : Int) (hxy : InGrid WIN_WIDTH WIN_HEIGHT x y) :
    (invertImage
        (invertImage background0 canvas1 WIN_WIDTH WIN_HEIGHT numThreads schedule)
        canvas2 WIN_WIDTH WIN_HEIGHT numThreads2 schedule2).getPixel x y
      = background0.getPixel x y ∧
    (∃ first second,
      invertImage2 background0 canvas1 WIN_WIDTH WIN_HEIGHT numThreads fuel = some first ∧
      invertImage2 first canvas2 WIN_WIDTH WIN_HEIGHT numThreads2 fuel = some second ∧
      second.getPixel x y = background0.getPixel x y) ∧
    (invertImage3
        (invertImage3 background0 canvas1 WIN_WIDTH WIN_HEIGHT numThreads)
        canvas2 WIN_WIDTH WIN_HEIGHT numThreads2).getPixel x y
      = background0.getPixel x y := by
  have hinv : ∀ d : Background, d.getPixel x y = invertColor (background0.getPixel x y) →
      invertColor (d.getPixel x y) = background0.getPixel x y := by
    intro d hd
    rw [hd]
    cases hc : background0.getPixel x y with
    | mk R G B =>
      simp only [invertColor, ColorInt.mk.injEq]
      omega
  obtain ⟨b1, b2, b3⟩ := window_bounds WIN_HEIGHT hH0 hH
  obtain ⟨id, hid, hmem⟩ := invertImage3_rows_cover (START_Y WIN_HEIGHT) (STOP_Y WIN_HEIGHT)
    numThreads hk1 hk b1 b3 y hxy.2.2.1 hxy.2.2.2
  obtain ⟨id2, hid2, hmem2⟩ := invertImage3_rows_cover (START_Y WIN_HEIGHT)
    (STOP_Y WIN_HEIGHT) numThreads2 hk2 hk3 b1 b3 y hxy.2.2.1 hxy.2.2.2
  refine ⟨?_, ?_, ?_⟩
  · have h2 := (paints_invertImage
      (invertImage background0 canvas1 WIN_WIDTH WIN_HEIGHT numThreads schedule)
      WIN_WIDTH WIN_HEIGHT numThreads2 hk2 schedule2).hit canvas2 x y hxy
    have h1 := (paints_invertImage background0 WIN_WIDTH WIN_HEIGHT numThreads hk1
      schedule).hit canvas1 x y hxy
    exact h2.trans (hinv _ h1)
  · obtain ⟨F, hF, hP⟩ :=
      paints_invertImage2 background0 WIN_WIDTH WIN_HEIGHT numThreads fuel hk1 hk hH0 hH hfuel
    obtain ⟨G, hG, hQ⟩ :=
      paints_invertImage2 (F canvas1) WIN_WIDTH WIN_HEIGHT numThreads2 fuel hk2 hk3 hH0 hH
        hfuel
    exact ⟨F canvas1, G canvas2, hF canvas1, hG canvas2,
      (hQ.hit canvas2 x y hxy).trans (hinv _ (hP.hit canvas1 x y hxy))⟩
  · have h2 := (paints_invertImage3
      (invertImage3 background0 canvas1 WIN_WIDTH WIN_HEIGHT numThreads)
      WIN_WIDTH WIN_HEIGHT numThreads2 hk2 hk3 hH0 hH).hit canvas2 x y
      ⟨hxy.1, hxy.2.1, id2, hid2, hmem2⟩
    have h1 := (paints_invertImage3 background0 WIN_WIDTH WIN_HEIGHT numThreads hk1 hk hH0
      hH).hit canvas1 x y ⟨hxy.1, hxy.2.1, id, hid, hmem⟩
    exact h2.trans (hinv _ h1)

theorem invert_twice_witness :
    (InGrid 4 4 0 0 ∧ originSurface.getPixel 0 0 = ⟨10, 20, 30⟩) ∧
    ((invertImage (invertImage originSurface blankCanvas 4 4 2 (fun y => y.toNat))
        blankCanvas 4 4 3 (fun _ => 0)).getPixel 0 0 = originSurface.getPixel 0 0 ∧
    (∃ first second,
      invertImage2 originSurface blankCanvas 4 4 2 4 = some first ∧
      invertImage2 first blankCanvas 4 4 3 4 = some second ∧
      second.getPixel 0 0 = originSurface.getPixel 0 0) ∧
    (invertImage3 (invertImage3 originSurface blankCanvas 4 4 2) blankCanvas 4 4 3).getPixel
        0 0 = originSurface.getPixel 0 0) :=
  ⟨by decide,
   invert_twice originSurface blankCanvas blankCanvas 4 4 2 3 (fun y => y.toNat) (fun _ => 0)
     4 (by decide) (by decide) (by decide) (by decide) (by decide) (by decide) (by decide)
     0 0 (by decide)⟩

/-- What does not depend on the worker count: `invertImage2` run by 1 worker and by 8
workers returns the same destination store; `invertImage3` run by 1 worker and by 8 workers
leaves the same colour at every coordinate of `[START_X, STOP_X) × [START_Y, STOP_Y)`, and
the very same store on a window of at least 49 rows, where no worker runs past `STOP_Y`. -/
theorem worker_count_independent_in_window (background0 canvas : Background)
    (WIN_WIDTH WIN_HEIGHT : Int) (fuel : Nat) (hH0 : 0 ≤ WIN_HEIGHT)
    (hH : WIN_HEIGHT < 2147483648)
    (hfuel : (STOP_Y WIN_HEIGHT - START_Y WIN_HEIGHT).toNat ≤ fuel) :
    (∃ background2,
      invertImage2 background0 canvas WIN_WIDTH WIN_HEIGHT 1 fuel = some background2 ∧
      invertImage2 background0 canvas WIN_WIDTH WIN_HEIGHT 8 fuel = some background2) ∧
    (∀ x y : Int, InGrid WIN_WIDTH WIN_HEIGHT x y →
      (invertImage3 background0 canvas WIN_WIDTH WIN_HEIGHT 1).getPixel x y
        = (invertImage3 background0 canvas WIN_WIDTH WIN_HEIGHT 8).getPixel x y) ∧
    (49 ≤ STOP_Y WIN_HEIGHT - START_Y WIN_HEIGHT →
      invertImage3 background0 canvas WIN_WIDTH WIN_HEIGHT 1
        = invertImage3 background0 canvas WIN_WIDTH WIN_HEIGHT 8) := by
  obtain ⟨b1, b2, b3⟩ := window_bounds WIN_HEIGHT hH0 hH
  have hone := paints_invertImage3_exact background0 WIN_WIDTH WIN_HEIGHT 1 (by decide)
    (by decide) hH0 hH (by simp only [Nat.sub_self, Nat.zero_mul, Nat.cast_zero]; omega)
  refine ⟨?_, ?_, ?_⟩
  · obtain ⟨F, hF, hP⟩ := paints_invertImage2 background0 WIN_WIDTH WIN_HEIGHT 1 fuel
      (by decide) (by decide) hH0 hH hfuel
    obtain ⟨G, hG, hQ⟩ := paints_invertImage2 background0 WIN_WIDTH WIN_HEIGHT 8 fuel
      (by decide) (by decide) hH0 hH hfuel
    refine ⟨F canvas, hF canvas, ?_⟩
    rw [hG canvas, paints_unique hP hQ canvas]
  · intro x y hxy
    obtain ⟨id2, hid2, hmem2⟩ := invertImage3_rows_cover (START_Y WIN_HEIGHT)
      (STOP_Y WIN_HEIGHT) 8 (by decide) (by decide) b1 b3 y hxy.2.2.1 hxy.2.2.2
    have h1 := hone.hit canvas x y hxy
    have h2 := (paints_invertImage3 background0 WIN_WIDTH WIN_HEIGHT 8 (by decide)
      (by decide) hH0 hH).hit canvas x y ⟨hxy.1, hxy.2.1, id2, hid2, hmem2⟩
    exact h1.trans h2.symm
  · intro hrows
    obtain ⟨_, hc⟩ := chunkSize_bounds (START_Y WIN_HEIGHT) (STOP_Y WIN_HEIGHT) 8 (by decide)
      b2 (by omega)
    have height := paints_invertImage3_exact background0 WIN_WIDTH WIN_HEIGHT 8 (by decide)
      (by decide) hH0 hH (by push_cast at hc ⊢; omega)
    exact paints_unique hone height canvas

/-- C10: on a window of 5 rows (`START_Y = -2`, `STOP_Y = 2`) `invertImage3` run by 1
worker leaves the cell `(0, 2)` of the destination as the canvas was created, `(0, 0, 0)`,
and run by 8 workers it leaves the inverse of the source pixel there, `(248, 248, 248)`:
with `chunkSize = 1` worker 4 iterates row 2, the overshoot of C2. The two destination
stores differ, and likewise on a window of 4 rows: the result of `invertImage3` depends on
the worker count. -/
theorem worker_count_changes_store :
    (START_Y 5 = -2 ∧ STOP_Y 5 = 2 ∧ invertImage3Rows (START_Y 5) (STOP_Y 5) 8 4 = [2] ∧
      (invertImage3 originSurface blankCanvas 5 5 1).getPixel 0 2 = ⟨0, 0, 0⟩ ∧
      (invertImage3 originSurface blankCanvas 5 5 8).getPixel 0 2 = ⟨248, 248, 248⟩ ∧
      invertImage3 originSurface blankCanvas 5 5 1
        ≠ invertImage3 originSurface blankCanvas 5 5 8) ∧
    ((invertImage3 originSurface blankCanvas 4 4 1).getPixel 0 2 = ⟨0, 0, 0⟩ ∧
      (invertImage3 originSurface blankCanvas 4 4 8).getPixel 0 2 = ⟨248, 248, 248⟩ ∧
      invertImage3 originSurface blankCanvas 4 4 1
        ≠ invertImage3 originSurface blankCanvas 4 4 8) := by
  have h51 : (invertImage3 originSurface blankCanvas 5 5 1).getPixel 0 2 = ⟨0, 0, 0⟩ := by
    decide
  have h58 : (invertImage3 originSurface blankCanvas 5 5 8).getPixel 0 2
      = ⟨248, 248, 248⟩ := by decide
  have h41 : (invertImage3 originSurface blankCanvas 4 4 1).getPixel 0 2 = ⟨0, 0, 0⟩ := by
    decide
  have h48 : (invertImage3 originSurface blankCanvas 4 4 8).getPixel 0 2
      = ⟨248, 248, 248⟩ := by decide
  refine ⟨⟨by decide, by decide, by decide, h51, h58, ?_⟩, h41, h48, ?_⟩
  · intro h
    rw [h, h58] at h51
    exact absurd h51 (by decide)
  · intro h
    rw [h, h48] at h41
    exact absurd h41 (by decide)

/-! ## Window extent -/

/-- The bounds of the loops span `2 * (W / 2)` columns: `W` of them for an even `W`, `W - 1`
for an odd one. -/
theorem window_extent (W : Int) (h0 : 0 ≤ W) :
    STOP_X W - START_X W = W - W % 2 ∧ STOP_Y W - START_Y W = W - W % 2 := by
  unfold START_X STOP_X START_Y STOP_Y
  rw [Int.neg_tdiv, Int.tdiv_eq_ediv h0 (by decide)]
  omega

theorem length_forUp_log (a b : Int) :
    (forUp a b (fun t rows => rows ++ [t]) []).length = (b - a).toNat := by
  unfold forUp
  rw [forUpAux_eq_foldl, foldl_log, List.nil_append, List.length_map, List.length_range]

theorem forUp_log_eq (a b : Int) :
    forUp a b (fun t rows => rows ++ [t]) []
      = (List.range (b - a).toNat).map (fun j : Nat => a + (j : Int)) := by
  unfold forUp
  rw [forUpAux_eq_foldl, foldl_log, List.nil_append]

/-- C11: on a window of width 5 and height 5 the bounds computed with C++ integer division
are `START_X = START_Y = -2` and `STOP_X = STOP_Y = 2`, so `STOP_X - START_X = 4` and
`STOP_Y - START_Y = 4`, not 5: the row loop visits the four rows `-2, -1, 0, 1` and the loop
nest of a pass reads 16 coordinates, each once, of the 25 of the surface. -/
theorem window_bounds_odd :
    (START_X 5 = -2 ∧ STOP_X 5 = 2 ∧ START_Y 5 = -2 ∧ STOP_Y 5 = 2) ∧
    (STOP_X 5 - START_X 5 = 4 ∧ STOP_Y 5 - START_Y 5 = 4) ∧
    forUp (START_Y 5) (STOP_Y 5) (fun y rows => rows ++ [y]) [] = [-2, -1, 0, 1] ∧
    (visitedCells 5 5 1 (fun _ => 0)).length = 16 ∧
    (visitedCells 5 5 1 (fun _ => 0)).Nodup := by
  decide

/-! ## One worker -/

theorem ceilDiv_one (n : Int) : ceilDiv n 1 = n := by
  unfold ceilDiv
  simp

/-- C13: with exactly one worker (the team `main` sets with `omp_set_num_threads(1)`), on
every row range within the 32-bit arithmetic of the source, worker 0 of `invertImage2`
(given fuel for the rows of the range) and worker 0 of `invertImage3` iterate the rows
`START_Y, START_Y + 1, ..., STOP_Y - 1`, in ascending order, and whatever the work on a row
is, the region of either pass does exactly what the sequential loop
`for (y = START_Y; y < STOP_Y; ++y)` does. -/
theorem one_worker_sequential (startY stopY : Int) (fuel : Nat)
    (hlo : -1073741824 ≤ startY) (hn : startY ≤ stopY) (hhi : stopY < 1073741824)
    (hfuel : (stopY - startY).toNat ≤ fuel) :
    (invertImage2Rows startY stopY 1 0 fuel
        = some ((List.range (stopY - startY).toNat).map (fun j : Nat => startY + (j : Int))) ∧
      invertImage3Rows startY stopY 1 0
        = (List.range (stopY - startY).toNat).map (fun j : Nat => startY + (j : Int))) ∧
    (∀ (σ : Type) (rowBody : Int → σ → σ) (s : σ),
      invertImage2Region rowBody startY stopY 1 0 fuel s = some (forUp startY stopY rowBody s) ∧
      invertImage3Region rowBody startY stopY 1 0 s = forUp startY stopY rowBody s) := by
  have h2 : ∀ (σ : Type) (rowBody : Int → σ → σ) (s : σ),
      invertImage2Region rowBody startY stopY 1 0 fuel s
        = some (forUp startY stopY rowBody s) := by
    intro σ rowBody s
    rw [invertImage2Region_eq rowBody startY stopY 1 0 fuel s (by decide) (by decide) hlo hn
      hhi (by decide) hfuel]
    unfold forUp
    rw [forUpAux_eq_foldl]
    simp only [Nat.cast_zero, sub_zero, add_zero, Nat.mul_one, ceilDiv_one]
  have h3 : ∀ (σ : Type) (rowBody : Int → σ → σ) (s : σ),
      invertImage3Region rowBody startY stopY 1 0 s = forUp startY stopY rowBody s := by
    intro σ rowBody s
    rw [invertImage3Region_eq rowBody startY stopY 1 0 s (by decide) (by decide) hlo hn hhi
      (by decide)]
    simp
  refine ⟨⟨?_, ?_⟩, fun σ rowBody s => ⟨h2 σ rowBody s, h3 σ rowBody s⟩⟩
  · unfold invertImage2Rows
    rw [h2, forUp_log_eq]
  · unfold invertImage3Rows
    rw [h3, forUp_log_eq]

theorem one_worker_sequential_witness :
    ((-1073741824 : Int) ≤ -2 ∧ (-2 : Int) ≤ 2 ∧ (2 : Int) < 1073741824 ∧
      ((2 : Int) - (-2)).toNat ≤ 4) ∧
    ((invertImage2Rows (-2) 2 1 0 4
        = some ((List.range ((2 : Int) - (-2)).toNat).map (fun j : Nat => (-2 : Int) + (j : Int))) ∧
      invertImage3Rows (-2) 2 1 0
        = (List.range ((2 : Int) - (-2)).toNat).map (fun j : Nat => (-2 : Int) + (j : Int))) ∧
    (∀ (σ : Type) (rowBody : Int → σ → σ) (s : σ),
      invertImage2Region rowBody (-2) 2 1 0 4 s = some (forUp (-2) 2 rowBody s) ∧
      invertImage3Region rowBody (-2) 2 1 0 s = forUp (-2) 2 rowBody s)) :=
  ⟨by decide,
   one_worker_sequential (-2) 2 4 (by decide) (by decide) (by decide) (by decide)⟩

/-! ## Colour range -/

theorem invertColor_inRange (c : ColorInt) (h : ChannelsInRange c) :
    ChannelsInRange (invertColor c) := by
  unfold ChannelsInRange invertColor at *
  simp only
  omega

/-- C14: the colour the inversion passes write for a source pixel whose channels are each
in `[0, 255]`, `(255 - R, 255 - G, 255 - B)`, has each channel in `[0, 255]`; and on a source
surface whose pixels in the window all have their channels in `[0, 255]`, every pass
(`invertImage`, `invertImage2`, `invertImage3`, `flipVertical`, `flipHorizontal`, the flips
writing the source colour unchanged) leaves at every coordinate of the window a colour with
each channel in `[0, 255]`. -/
theorem channels_stay_in_range (background0 canvas : Background)
    (WIN_WIDTH WIN_HEIGHT : Int) (numThreads : Nat) (schedule : Int → Nat) (fuel : Nat)
    (hk1 : 1 ≤ numThreads) (hk : numThreads ≤ 1073741824) (hH0 : 0 ≤ WIN_HEIGHT)
    (hH : WIN_HEIGHT < 2147483648)
    (hfuel : (STOP_Y WIN_HEIGHT - START_Y WIN_HEIGHT).toNat ≤ fuel)
    (hsrc : ∀ x y, InGrid WIN_WIDTH WIN_HEIGHT x y → ChannelsInRange (background0.getPixel x y)) :
    (∀ pixelColor : ColorInt, ChannelsInRange pixelColor →
      invertColor pixelColor = ⟨255 - pixelColor.R, 255 - pixelColor.G, 255 - pixelColor.B⟩ ∧
      ChannelsInRange (invertColor pixelColor)) ∧
    (∀ x y, InGrid WIN_WIDTH WIN_HEIGHT x y →
      ChannelsInRange
        ((invertImage background0 canvas WIN_WIDTH WIN_HEIGHT numThreads schedule).getPixel x y) ∧
      (∃ background2,
        invertImage2 background0 canvas WIN_WIDTH WIN_HEIGHT numThreads fuel = some background2 ∧
        ChannelsInRange (background2.getPixel x y)) ∧
      ChannelsInRange
        ((invertImage3 background0 canvas WIN_WIDTH WIN_HEIGHT numThreads).getPixel x y) ∧
      ChannelsInRange
        ((flipVertical background0 canvas WIN_WIDTH WIN_HEIGHT numThreads schedule).getPixel x y) ∧
      ChannelsInRange
        ((flipHorizontal background0 canvas WIN_WIDTH WIN_HEIGHT numThreads
          schedule).getPixel x y)) := by
  refine ⟨fun c hc => ⟨rfl, invertColor_inRange c hc⟩, ?_⟩
  intro x y hxy
  obtain ⟨b1, b2, b3⟩ := window_bounds WIN_HEIGHT hH0 hH
  have hinv := invertColor_inRange _ (hsrc x y hxy)
  refine ⟨?_, ?_, ?_, ?_, ?_⟩
  · have h := (paints_invertImage background0 WIN_WIDTH WIN_HEIGHT numThreads hk1 schedule).hit
      canvas x y hxy
    unfold Background.getPixel at hinv ⊢
    rw [h]
    exact hinv
  · obtain ⟨F, hF, hP⟩ :=
      paints_invertImage2 background0 WIN_WIDTH WIN_HEIGHT numThreads fuel hk1 hk hH0 hH hfuel
    refine ⟨F canvas, hF canvas, ?_⟩
    have h := hP.hit canvas x y hxy
    unfold Background.getPixel at hinv ⊢
    rw [h]
    exact hinv
  · obtain ⟨id, hid, hmem⟩ := invertImage3_rows_cover (START_Y WIN_HEIGHT)
      (STOP_Y WIN_HEIGHT) numThreads hk1 hk b1 b3 y hxy.2.2.1 hxy.2.2.2
    have h := (paints_invertImage3 background0 WIN_WIDTH WIN_HEIGHT numThreads hk1 hk hH0
      hH).hit canvas x y ⟨hxy.1, hxy.2.1, id, hid, hmem⟩
    unfold Background.getPixel at hinv ⊢
    rw [h]
    exact hinv
  · have h := (paints_flipVertical background0 WIN_WIDTH WIN_HEIGHT numThreads hk1
      schedule).hit canvas x y hxy
    have hs := hsrc x (START_Y WIN_HEIGHT + STOP_Y WIN_HEIGHT - 1 - y)
      ⟨hxy.1, hxy.2.1, by have := hxy.2.2.2; omega, by have := hxy.2.2.1; omega⟩
    unfold Background.getPixel at hs ⊢
    rw [h]
    exact hs
  · have h := (paints_flipHorizontal background0 WIN_WIDTH WIN_HEIGHT numThreads hk1
      schedule).hit canvas x y hxy
    have hs := hsrc (START_X WIN_WIDTH + STOP_X WIN_WIDTH - 1 - x) y
      ⟨by have := hxy.2.1; omega, by have := hxy.1; omega, hxy.2.2.1, hxy.2.2.2⟩
    unfold Background.getPixel at hs ⊢
    rw [h]
    exact hs

theorem channels_stay_in_range_witness :
    (InGrid 4 2 (-2) 0 ∧ ChannelsInRange (lettersSurface.getPixel (-2) 0)) ∧
    ((∀ pixelColor : ColorInt, ChannelsInRange pixelColor →
      invertColor pixelColor = ⟨255 - pixelColor.R, 255 - pixelColor.G, 255 - pixelColor.B⟩ ∧
      ChannelsInRange (invertColor pixelColor)) ∧
    (∀ x y, InGrid 4 2 x y →
      ChannelsInRange
        ((invertImage lettersSurface blankCanvas 4 2 8 (fun y => y.toNat)).getPixel x y) ∧
      (∃ background2,
        invertImage2 lettersSurface blankCanvas 4 2 8 2 = some background2 ∧
        ChannelsInRange (background2.getPixel x y)) ∧
      ChannelsInRange ((invertImage3 lettersSurface blankCanvas 4 2 8).getPixel x y) ∧
      ChannelsInRange
        ((flipVertical lettersSurface blankCanvas 4 2 8 (fun y => y.toNat)).getPixel x y) ∧
      ChannelsInRange
        ((flipHorizontal lettersSurface blankCanvas 4 2 8 (fun y => y.toNat)).getPixel x y))) :=
  ⟨by decide,
   channels_stay_in_range lettersSurface blankCanvas 4 2 8 (fun y => y.toNat) 2 (by decide)
     (by decide) (by decide) (by decide) (by decide)
     (by
      rintro x y ⟨h1, h2, h3, h4⟩
      have e1 : START_X 4 = -2 := by decide
      have e2 : STOP_X 4 = 2 := by decide
      have e3 : START_Y 2 = -1 := by decide
      have e4 : STOP_Y 2 = 1 := by decide
      rw [e1] at h1
      rw [e2] at h2
      rw [e3] at h3
      rw [e4] at h4
      have hx : x = -2 ∨ x = -1 ∨ x = 0 ∨ x = 1 := by omega
      have hy : y = -1 ∨ y = 0 := by omega
      rcases hx with rfl | rfl | rfl | rfl <;> rcases hy with rfl | rfl <;> decide)⟩

/-! ## Mixed `int`/`unsigned` expressions -/

theorem toInt_range (u : Nat) : -2147483648 ≤ toInt u ∧ toInt u < 2147483648 := by
  unfold toInt
  split <;> omega

theorem toInt_uadd_congr (a : Int) (b : Nat) :
    (toInt (uadd (toUnsigned a) b) - (a + b)) % 4294967296 = 0 := by
  unfold toInt uadd toUnsigned
  split <;> omega

theorem chunkStart_congr (startY : Int) (id chunk : Nat) :
    (chunkStart startY id chunk - ((id : Int) * chunk + startY)) % 4294967296 = 0 := by
  have e : (id : Int) * chunk = ((id * chunk : Nat) : Int) := by push_cast; rfl
  rw [e]
  unfold chunkStart toInt uadd umul toUnsigned
  generalize id * chunk = p
  split <;> omega

/-- C18: the mixed `int`/`unsigned` expressions that compute rows, `id * chunkSize + START_Y`
and `start + chunkSize` in `invertImage3`, `START_Y + id` and `y + numThreads` in
`invertImage2`, are evaluated modulo `2^32` and converted to a 32-bit `int`: each value lies
in `[-2^31, 2^31)` and is congruent modulo `2^32` to the integer the expression denotes.
Whenever that integer lies in `[-2^31, 2^31)`, for a negative `START_Y` as for any other, the
value is that integer: the row bounds of worker `id` are `id * chunkSize + START_Y` and
`start + chunkSize`, the interleave loop starts at `START_Y + id` and steps from `y` to
`y + numThreads`. -/
theorem mixed_arithmetic_exact (startY stopY start y : Int)
    (numThreads id chunk fuel : Nat) :
    ((-2147483648 ≤ chunkStart startY id chunk ∧ chunkStart startY id chunk < 2147483648 ∧
        (chunkStart startY id chunk - ((id : Int) * chunk + startY)) % 4294967296 = 0) ∧
      (id < usub numThreads 1 →
        -2147483648 ≤ chunkStop stopY numThreads id chunk start ∧
        chunkStop stopY numThreads id chunk start < 2147483648 ∧
        (chunkStop stopY numThreads id chunk start - (start + chunk)) % 4294967296 = 0) ∧
      (-2147483648 ≤ toInt (uadd (toUnsigned startY) id) ∧
        toInt (uadd (toUnsigned startY) id) < 2147483648 ∧
        (toInt (uadd (toUnsigned startY) id) - (startY + id)) % 4294967296 = 0) ∧
      (-2147483648 ≤ toInt (uadd (toUnsigned y) numThreads) ∧
        toInt (uadd (toUnsigned y) numThreads) < 2147483648 ∧
        (toInt (uadd (toUnsigned y) numThreads) - (y + numThreads)) % 4294967296 = 0)) ∧
    ((-2147483648 ≤ (id : Int) * chunk + startY → (id : Int) * chunk + startY < 2147483648 →
        chunkStart startY id chunk = (id : Int) * chunk + startY) ∧
      (id < usub numThreads 1 → -2147483648 ≤ start + chunk → start + chunk < 2147483648 →
        chunkStop stopY numThreads id chunk start = start + chunk) ∧
      (-2147483648 ≤ startY + id → startY + id < 2147483648 →
        ∀ (σ : Type) (rowBody : Int → σ → σ) (s : σ),
          invertImage2Region rowBody startY stopY numThreads id fuel s
            = interleaveLoop stopY numThreads rowBody fuel (startY + id) s) ∧
      (y < stopY → -2147483648 ≤ y + numThreads → y + numThreads < 2147483648 →
        ∀ (σ : Type) (rowBody : Int → σ → σ) (s : σ),
          interleaveLoop stopY numThreads rowBody (fuel + 1) y s
            = interleaveLoop stopY numThreads rowBody fuel (y + numThreads) (rowBody y s))) := by
  refine ⟨⟨?_, ?_, ?_, ?_⟩, ?_, ?_, ?_, ?_⟩
  · exact ⟨(toInt_range _).1, (toInt_range _).2, chunkStart_congr startY id chunk⟩
  · intro hid
    unfold chunkStop
    rw [if_pos hid]
    exact ⟨(toInt_range _).1, (toInt_range _).2, toInt_uadd_congr start chunk⟩
  · exact ⟨(toInt_range _).1, (toInt_range _).2, toInt_uadd_congr startY id⟩
  · exact ⟨(toInt_range _).1, (toInt_range _).2, toInt_uadd_congr y numThreads⟩
  · intro h1 h2
    rw [chunkStart_eq startY id chunk (by push_cast; omega) (by push_cast; omega)]
    push_cast
    ring
  · intro hid h1 h2
    unfold chunkStop
    rw [if_pos hid, toInt_uadd_toUnsigned start chunk h1 h2]
  · intro h1 h2 σ rowBody s
    unfold invertImage2Region
    rw [toInt_uadd_toUnsigned startY id h1 h2]
  · intro hy h1 h2 σ rowBody s
    rw [interleaveLoop, if_pos hy, toInt_uadd_toUnsigned y numThreads h1 h2]

theorem mixed_arithmetic_exact_witness :
    ((-400 : Int) < 0 ∧ 3 < usub 8 1 ∧
      (-2147483648 : Int) ≤ ((3 : Nat) : Int) * ((100 : Nat) : Int) + -400 ∧
      ((3 : Nat) : Int) * ((100 : Nat) : Int) + -400 < 2147483648 ∧
      (-2147483648 : Int) ≤ -100 + ((100 : Nat) : Int) ∧
      (-100 : Int) + ((100 : Nat) : Int) < 2147483648) ∧
    (chunkStart (-400) 3 100 = ((3 : Nat) : Int) * ((100 : Nat) : Int) + -400 ∧
      chunkStop 400 8 3 100 (-100) = -100 + ((100 : Nat) : Int) ∧
      (∀ (σ : Type) (rowBody : Int → σ → σ) (s : σ),
        invertImage2Region rowBody (-400) 400 8 3 10 s
          = interleaveLoop 400 8 rowBody 10 (-400 + ((3 : Nat) : Int)) s) ∧
      (∀ (σ : Type) (rowBody : Int → σ → σ) (s : σ),
        interleaveLoop 400 8 rowBody (10 + 1) (-397) s
          = interleaveLoop 400 8 rowBody 10 (-397 + ((8 : Nat) : Int)) (rowBody (-397) s))) :=
  ⟨by decide,
   (mixed_arithmetic_exact (-400) 400 (-100) (-397) 8 3 100 10).2.1 (by decide) (by decide),
   (mixed_arithmetic_exact (-400) 400 (-100) (-397) 8 3 100 10).2.2.1 (by decide) (by decide)
     (by decide),
   (mixed_arithmetic_exact (-400) 400 (-100) (-397) 8 3 100 10).2.2.2.1 (by decide)
     (by decide),
   (mixed_arithmetic_exact (-400) 400 (-100) (-397) 8 3 100 10).2.2.2.2 (by decide)
     (by decide) (by decide)⟩

/-! ## Row counts -/

/-- The number of rows of worker `id` of `invertImage2` is `ceil((n - id) / k)` when
`id < n` and 0 otherwise, `n = STOP_Y - START_Y`. -/
theorem interleave_count_val (startY stopY : Int) (k id : Nat) (hk1 : 1 ≤ k) :
    (((ceilDiv (stopY - startY - id) k).toNat : Nat) : Int)
      = if (id : Int) < stopY - startY then ceilDiv (stopY - startY - id) k else 0 := by
  obtain ⟨h1, h2⟩ := ceilDiv_bounds (stopY - startY - id) k hk1
  have hk0 : (1 : Int) ≤ k := by exact_mod_cast hk1
  by_cases hid : (id : Int) < stopY - startY
  · rw [if_pos hid]
    have hc : 0 ≤ ceilDiv (stopY - startY - id) k := by
      by_contra hneg
      have : ceilDiv (stopY - startY - id) k * k ≤ (-1) * k := by
        apply mul_le_mul_of_nonneg_right <;> omega
      omega
    exact Int.toNat_of_nonneg hc
  · rw [if_neg hid]
    have hc : ceilDiv (stopY - startY - id) k ≤ 0 := by
      by_contra hpos
      have : 1 * (k : Int) ≤ ceilDiv (stopY - startY - id) k * k := by
        apply mul_le_mul_of_nonneg_right <;> omega
      omega
    omega

/-- C16: in `invertImage2`, for every team of `k ≥ 1` workers and every row range (within
the 32-bit arithmetic of the source, fuel for the rows of the range), worker `id` iterates
`ceil((n - id) / k)` rows when `id < n` and no row otherwise, `n = STOP_Y - START_Y`, and the
numbers of rows of any two workers differ by at most one. -/
theorem interleave_balanced (startY stopY : Int) (numThreads fuel : Nat)
    (hk1 : 1 ≤ numThreads) (hk : numThreads ≤ 1073741824)
    (hlo : -1073741824 ≤ startY) (hn : startY ≤ stopY) (hhi : stopY < 1073741824)
    (hfuel : (stopY - startY).toNat ≤ fuel) :
    (∀ id, id < numThreads → ∃ rows,
      invertImage2Rows startY stopY numThreads id fuel = some rows ∧
      (rows.length : Int)
        = if (id : Int) < stopY - startY then ceilDiv (stopY - startY - id) numThreads
          else 0) ∧
    (∀ id1 id2 rows1 rows2, id1 < numThreads → id2 < numThreads →
      invertImage2Rows startY stopY numThreads id1 fuel = some rows1 →
      invertImage2Rows startY stopY numThreads id2 fuel = some rows2 →
      rows1.length ≤ rows2.length + 1 ∧ rows2.length ≤ rows1.length + 1) := by
  have hrows : ∀ id, id < numThreads →
      invertImage2Rows startY stopY numThreads id fuel
        = some ((List.range (ceilDiv (stopY - startY - id) numThreads).toNat).map
            (fun j : Nat => startY + id + ((j * numThreads : Nat) : Int))) := by
    intro id hid
    unfold invertImage2Rows
    rw [invertImage2Region_eq _ _ _ _ _ _ _ hk1 hk hlo hn hhi hid hfuel, foldl_log,
      List.nil_append]
  have hone : ∀ id1 id2, id1 < numThreads → id2 < numThreads →
      (ceilDiv (stopY - startY - id1) numThreads).toNat
        ≤ (ceilDiv (stopY - startY - id2) numThreads).toNat + 1 := by
    intro id1 id2 h1 h2
    obtain ⟨m1, e1, _, a1, b1⟩ := interleave_count startY stopY numThreads id1 hk1
    obtain ⟨m2, e2, _, a2, _⟩ := interleave_count startY stopY numThreads id2 hk1
    rw [← e1, ← e2]
    by_contra hgt
    have hm : (m2 + 2) * numThreads ≤ m1 * numThreads :=
      Nat.mul_le_mul_right numThreads (by omega)
    have hm2 : (((m2 + 2) * numThreads : Nat) : Int) ≤ ((m1 * numThreads : Nat) : Int) := by
      exact_mod_cast hm
    have e : (((m2 + 2) * numThreads : Nat) : Int)
        = ((m2 * numThreads : Nat) : Int) + 2 * (numThreads : Int) := by
      push_cast
      ring
    rcases b1 with b1 | b1
    · omega
    · omega
  constructor
  · intro id hid
    refine ⟨_, hrows id hid, ?_⟩
    rw [List.length_map, List.length_range]
    exact interleave_count_val startY stopY numThreads id hk1
  · intro id1 id2 rows1 rows2 h1 h2 e1 e2
    rw [hrows id1 h1] at e1
    rw [hrows id2 h2] at e2
    rw [← Option.some.inj e1, ← Option.some.inj e2]
    simp only [List.length_map, List.length_range]
    exact ⟨hone id1 id2 h1 h2, hone id2 id1 h2 h1⟩

theorem interleave_balanced_witness :
    (1 ≤ 3 ∧ 3 ≤ 1073741824 ∧ (-1073741824 : Int) ≤ -5 ∧ (-5 : Int) ≤ 5 ∧
      (5 : Int) < 1073741824 ∧ ((5 : Int) - (-5)).toNat ≤ 10) ∧
    ((∀ id, id < 3 → ∃ rows,
      invertImage2Rows (-5) 5 3 id 10 = some rows ∧
      (rows.length : Int)
        = if (id : Int) < (5 : Int) - (-5) then ceilDiv ((5 : Int) - (-5) - id) 3 else 0) ∧
    (∀ id1 id2 rows1 rows2, id1 < 3 → id2 < 3 →
      invertImage2Rows (-5) 5 3 id1 10 = some rows1 →
      invertImage2Rows (-5) 5 3 id2 10 = some rows2 →
      rows1.length ≤ rows2.length + 1 ∧ rows2.length ≤ rows1.length + 1)) :=
  ⟨by decide,
   interleave_balanced (-5) 5 3 10 (by decide) (by decide) (by decide) (by decide)
     (by decide) (by decide)⟩

/-! ## Chunks that fit -/

/-- Without overflow, the row bounds of worker `id` of `invertImage3` are
`START_Y + id * chunkSize` and `START_Y + (id + 1) * chunkSize`, the last worker's upper
bound being `STOP_Y`. -/
theorem chunk_bounds_eq (startY stopY : Int) (k id : Nat) (hk1 : 1 ≤ k)
    (hk : k ≤ 1073741824) (hlo : -1073741824 ≤ startY) (hn : startY ≤ stopY)
    (hhi : stopY < 1073741824) (hid : id < k) :
    chunkStart startY id (chunkSize startY stopY k)
        = startY + ((id * chunkSize startY stopY k : Nat) : Int) ∧
      chunkStop stopY k id (chunkSize startY stopY k)
          (chunkStart startY id (chunkSize startY stopY k))
        = (if id + 1 < k then startY + (((id + 1) * chunkSize startY stopY k : Nat) : Int)
            else stopY) := by
  obtain ⟨_, h2⟩ := chunkSize_bounds startY stopY k hk1 hn (by omega)
  have h3 := chunk_mul_le id k (chunkSize startY stopY k) hid
  have hs : chunkStart startY id (chunkSize startY stopY k)
      = startY + ((id * chunkSize startY stopY k : Nat) : Int) :=
    chunkStart_eq _ _ _ (by omega) (by omega)
  refine ⟨hs, ?_⟩
  rw [hs]
  unfold chunkStop
  rw [usub_one k hk1 (by omega)]
  by_cases hlast : id + 1 < k
  · rw [if_pos (by omega), if_pos hlast, toInt_uadd_toUnsigned _ _ (by omega) (by omega)]
    rw [Nat.succ_mul]
    push_cast
    ring
  · rw [if_neg (by omega), if_neg hlast]

/-- When `(k - 1)^2 ≤ n` or `k` divides `n`, the chunks of the workers before the last one
fit into the range: `(k - 1) * ceil(n / k) ≤ n`. -/
theorem chunk_fit (startY stopY : Int) (k : Nat) (hk1 : 1 ≤ k) (hn : startY ≤ stopY)
    (hn2 : stopY - startY < 4294967296)
    (hcond : ((k : Int) - 1) ^ 2 ≤ stopY - startY ∨ (k : Int) ∣ stopY - startY) :
    (((k - 1) * chunkSize startY stopY k : Nat) : Int) ≤ stopY - startY := by
  obtain ⟨h1, h2⟩ := chunkSize_bounds startY stopY k hk1 hn hn2
  generalize chunkSize startY stopY k = c at *
  generalize stopY - startY = n at *
  have hk0 : (1 : Int) ≤ k := by exact_mod_cast hk1
  have hc0 : (0 : Int) ≤ c := Int.natCast_nonneg c
  have e : (((k - 1) * c : Nat) : Int) = ((k : Int) - 1) * c := by
    rw [Nat.cast_mul, Nat.cast_sub hk1]
    simp
  rw [e]
  push_cast at h1 h2
  have e2 : (c : Int) * k = ((k : Int) - 1) * c + c := by ring
  rcases hcond with hsq | ⟨q, hq⟩
  · by_cases hca : (c : Int) ≤ (k : Int) - 1
    · have : ((k : Int) - 1) * c ≤ ((k : Int) - 1) * ((k : Int) - 1) := by
        apply mul_le_mul_of_nonneg_left hca (by omega)
      have e3 : ((k : Int) - 1) ^ 2 = ((k : Int) - 1) * ((k : Int) - 1) := by ring
      omega
    · omega
  · have hcq : (c : Int) = q := by
      have hle : q ≤ (c : Int) := by
        by_contra hlt
        have : ((c : Int) + 1) * k ≤ q * k := by
          apply mul_le_mul_of_nonneg_right <;> omega
        have e4 : ((c : Int) + 1) * k = c * k + k := by ring
        have e5 : q * (k : Int) = k * q := by ring
        omega
      have hge : (c : Int) ≤ q := by
        by_contra hlt
        have : (q + 1) * (k : Int) ≤ c * k := by
          apply mul_le_mul_of_nonneg_right <;> omega
        have e4 : (q + 1) * (k : Int) = k * q + k := by ring
        omega
      omega
    have e4 : (k : Int) * q = ((k : Int) - 1) * q + q := by ring
    rw [hcq] at hc0 ⊢
    omega

/-- For a team of at least one worker and a non-negative row count the chunk size of
`invertImage3` is the ceiling of `n / k`. -/
theorem chunkSize_eq_ceilDiv (startY stopY : Int) (k : Nat) (hk1 : 1 ≤ k)
    (hn : startY ≤ stopY) (hn2 : stopY - startY < 4294967296) :
    (chunkSize startY stopY k : Int) = ceilDiv (stopY - startY) k := by
  obtain ⟨c1, c2⟩ := ceilDiv_bounds (stopY - startY) k hk1
  obtain ⟨d1, d2⟩ := chunkSize_bounds startY stopY k hk1 hn hn2
  have hk0 : (1 : Int) ≤ k := by exact_mod_cast hk1
  push_cast at d1 d2
  by_contra hne
  rcases lt_or_gt_of_ne hne with hlt | hgt
  · have : ((chunkSize startY stopY k : Int) + 1) * k ≤ ceilDiv (stopY - startY) k * k := by
      apply mul_le_mul_of_nonneg_right <;> omega
    have e4 : ((chunkSize startY stopY k : Int) + 1) * k
        = chunkSize startY stopY k * k + k := by ring
    omega
  · have : (ceilDiv (stopY - startY) k + 1) * k ≤ (chunkSize startY stopY k : Int) * k := by
      apply mul_le_mul_of_nonneg_right <;> omega
    have e4 : (ceilDiv (stopY - startY) k + 1) * k
        = ceilDiv (stopY - startY) k * k + k := by ring
    omega

/-- C17: in `invertImage3`, for every team of `k ≥ 1` workers and every row count
`n = STOP_Y - START_Y` with `(k - 1)^2 ≤ n`, and also whenever `k` divides `n` (rows and team
size within the 32-bit arithmetic of the source), `(k - 1) * ceil(n / k) ≤ n`; the range
`[start, stop)` of every worker lies within `[START_Y, STOP_Y)` and is not inverted, the last
one included; the `k` ranges are consecutive, from `START_Y` to `STOP_Y`; no worker iterates
a row outside `[START_Y, STOP_Y)` and every row of `[START_Y, STOP_Y)` is iterated by
exactly one worker. -/
theorem chunks_partition_when_fit (startY stopY : Int) (numThreads : Nat)
    (hk1 : 1 ≤ numThreads) (hk : numThreads ≤ 1073741824)
    (hlo : -1073741824 ≤ startY) (hn : startY ≤ stopY) (hhi : stopY < 1073741824)
    (hcond : ((numThreads : Int) - 1) ^ 2 ≤ stopY - startY ∨
      (numThreads : Int) ∣ stopY - startY) :
    (chunkSize startY stopY numThreads : Int) = ceilDiv (stopY - startY) numThreads ∧
    ((numThreads : Int) - 1) * chunkSize startY stopY numThreads ≤ stopY - startY ∧
    (∀ id, id < numThreads →
      startY ≤ chunkStart startY id (chunkSize startY stopY numThreads) ∧
      chunkStart startY id (chunkSize startY stopY numThreads)
        ≤ chunkStop stopY numThreads id (chunkSize startY stopY numThreads)
            (chunkStart startY id (chunkSize startY stopY numThreads)) ∧
      chunkStop stopY numThreads id (chunkSize startY stopY numThreads)
          (chunkStart startY id (chunkSize startY stopY numThreads)) ≤ stopY) ∧
    (chunkStart startY 0 (chunkSize startY stopY numThreads) = startY ∧
      (∀ id, id + 1 < numThreads →
        chunkStop stopY numThreads id (chunkSize startY stopY numThreads)
            (chunkStart startY id (chunkSize startY stopY numThreads))
          = chunkStart startY (id + 1) (chunkSize startY stopY numThreads)) ∧
      chunkStop stopY numThreads (numThreads - 1) (chunkSize startY stopY numThreads)
          (chunkStart startY (numThreads - 1) (chunkSize startY stopY numThreads)) = stopY) ∧
    (∀ id, id < numThreads → ∀ y, y ∈ invertImage3Rows startY stopY numThreads id →
      startY ≤ y ∧ y < stopY) ∧
    (∀ y, startY ≤ y → y < stopY →
      ∃! id, id < numThreads ∧ y ∈ invertImage3Rows startY stopY numThreads id) := by
  have hfit := chunk_fit startY stopY numThreads hk1 hn (by omega) hcond
  have hfitI : ((numThreads : Int) - 1) * chunkSize startY stopY numThreads
      ≤ stopY - startY := by
    have e : (((numThreads - 1) * chunkSize startY stopY numThreads : Nat) : Int)
        = ((numThreads : Int) - 1) * chunkSize startY stopY numThreads := by
      rw [Nat.cast_mul, Nat.cast_sub hk1]
      simp
    rw [← e]
    exact hfit
  have hceil := chunkSize_eq_ceilDiv startY stopY numThreads hk1 hn (by omega)
  have hmono : ∀ a b : Nat, a ≤ b →
      ((a * chunkSize startY stopY numThreads : Nat) : Int)
        ≤ ((b * chunkSize startY stopY numThreads : Nat) : Int) := by
    intro a b hab
    exact_mod_cast Nat.mul_le_mul_right _ hab
  have hpos : ∀ a : Nat, (0 : Int) ≤ ((a * chunkSize startY stopY numThreads : Nat) : Int) :=
    fun a => Int.natCast_nonneg _
  refine ⟨hceil, hfitI, ?_, ⟨?_, ?_, ?_⟩, ?_, ?_⟩
  · intro id hid
    obtain ⟨hs, ht⟩ := chunk_bounds_eq startY stopY numThreads id hk1 hk hlo hn hhi hid
    rw [ht, hs]
    have h0 := hpos id
    have h1 := hmono id (numThreads - 1) (by omega)
    by_cases hlast : id + 1 < numThreads
    · rw [if_pos hlast]
      have h2 := hmono id (id + 1) (by omega)
      have h3 := hmono (id + 1) (numThreads - 1) (by omega)
      omega
    · rw [if_neg hlast]
      omega
  · obtain ⟨hs, _⟩ := chunk_bounds_eq startY stopY numThreads 0 hk1 hk hlo hn hhi (by omega)
    rw [hs]
    simp
  · intro id hid
    obtain ⟨_, ht⟩ := chunk_bounds_eq startY stopY numThreads id hk1 hk hlo hn hhi
      (by omega)
    obtain ⟨hs, _⟩ := chunk_bounds_eq startY stopY numThreads (id + 1) hk1 hk hlo hn hhi hid
    rw [ht, hs, if_pos hid]
  · obtain ⟨_, ht⟩ := chunk_bounds_eq startY stopY numThreads (numThreads - 1) hk1 hk hlo hn
      hhi (by omega)
    rw [ht, if_neg (by omega)]
  · intro id hid y hy
    exact invertImage3_rows_within startY stopY numThreads id y hk1 hk hlo hn hhi hid hfit hy
  · intro y hy1 hy2
    obtain ⟨id, hid, h1, h2⟩ := chunk_cover startY stopY numThreads y hk1 hy1 hy2 (by omega)
    refine ⟨id, ⟨hid, (mem_invertImage3Rows _ _ _ _ _ hk1 hk hlo hn hhi hid).2 ⟨h1, h2⟩⟩, ?_⟩
    rintro id2 ⟨hid2, hmem⟩
    rw [mem_invertImage3Rows _ _ _ _ _ hk1 hk hlo hn hhi hid2] at hmem
    rcases Nat.lt_trichotomy id2 id with hlt | heq | hgt
    · exact (chunk_disjoint startY stopY numThreads _ y id2 id hlt hid hmem.2 h1).elim
    · exact heq
    · exact (chunk_disjoint startY stopY numThreads _ y id id2 hgt hid2 h2 hmem.1).elim

theorem chunks_partition_when_fit_witness :
    (1 ≤ 3 ∧ 3 ≤ 1073741824 ∧ (-1073741824 : Int) ≤ -2 ∧ (-2 : Int) ≤ 2 ∧
      (2 : Int) < 1073741824 ∧ (((3 : Nat) : Int) - 1) ^ 2 ≤ (2 : Int) - (-2)) ∧
    ((((3 : Nat) : Int) - 1) * chunkSize (-2) 2 3 ≤ (2 : Int) - (-2) ∧
      (∀ id, id < 3 → ∀ y, y ∈ invertImage3Rows (-2) 2 3 id → (-2 : Int) ≤ y ∧ y < 2) ∧
      (∀ y, (-2 : Int) ≤ y → y < 2 → ∃! id, id < 3 ∧ y ∈ invertImage3Rows (-2) 2 3 id)) :=
  ⟨by decide,
   (chunks_partition_when_fit (-2) 2 3 (by decide) (by decide) (by decide) (by decide)
      (by decide) (Or.inl (by decide))).2.1,
   (chunks_partition_when_fit (-2) 2 3 (by decide) (by decide) (by decide) (by decide)
      (by decide) (Or.inl (by decide))).2.2.2.2.1,
   (chunks_partition_when_fit (-2) 2 3 (by decide) (by decide) (by decide) (by decide)
      (by decide) (Or.inl (by decide))).2.2.2.2.2⟩

/-- C12, the claim refuted: on the 4 rows `[-2, 2)` with 3 workers `chunkSize = 2`, workers
0 and 1 iterate 2 rows each, `(k - 1) * chunkSize = 4` rows in all, and the last worker
iterates no row: the remainder `n - (k - 1) * chunkSize` is 0, not at least 1. -/
theorem last_worker_idle :
    chunkSize (-2) 2 3 = 2 ∧
    invertImage3Rows (-2) 2 3 0 = [-2, -1] ∧
    invertImage3Rows (-2) 2 3 1 = [0, 1] ∧
    invertImage3Rows (-2) 2 3 2 = [] ∧
    (2 : Int) - (-2) - ((3 : Int) - 1) * chunkSize (-2) 2 3 = 0 ∧
    ¬ (1 ≤ (invertImage3Rows (-2) 2 3 (3 - 1)).length) := by
  decide

/-- C12, amended: in `invertImage3`, for every team of `k ≥ 1` workers and every row count
`n = STOP_Y - START_Y ≥ 1` (within the 32-bit arithmetic of the source) such that the chunks
before the last one fit, `(k - 1) * chunkSize ≤ n`, with `chunkSize = ceil(n / k)`: every
worker other than the last iterates exactly `chunkSize` rows, and the last worker iterates
exactly the remainder `n - (k - 1) * chunkSize` rows, a number that is at least 0 and at
most `chunkSize`. -/
theorem chunk_row_counts (startY stopY : Int) (numThreads : Nat)
    (hk1 : 1 ≤ numThreads) (hk : numThreads ≤ 1073741824)
    (hlo : -1073741824 ≤ startY) (hhi : stopY < 1073741824)
    (hn1 : 1 ≤ stopY - startY)
    (hfit : ((numThreads : Int) - 1) * chunkSize startY stopY numThreads ≤ stopY - startY) :
    (chunkSize startY stopY numThreads : Int) = ceilDiv (stopY - startY) numThreads ∧
    (∀ id, id + 1 < numThreads →
      (invertImage3Rows startY stopY numThreads id).length
        = chunkSize startY stopY numThreads) ∧
    ((invertImage3Rows startY stopY numThreads (numThreads - 1)).length : Int)
      = stopY - startY - ((numThreads : Int) - 1) * chunkSize startY stopY numThreads ∧
    0 ≤ stopY - startY - ((numThreads : Int) - 1) * chunkSize startY stopY numThreads ∧
    stopY - startY - ((numThreads : Int) - 1) * chunkSize startY stopY numThreads
      ≤ chunkSize startY stopY numThreads := by
  have hn : startY ≤ stopY := by omega
  obtain ⟨d1, d2⟩ := chunkSize_bounds startY stopY numThreads hk1 hn (by omega)
  push_cast at d1 d2
  have hlen : ∀ id, id < numThreads →
      (invertImage3Rows startY stopY numThreads id).length
        = ((if id + 1 < numThreads then
              startY + (((id + 1) * chunkSize startY stopY numThreads : Nat) : Int)
            else stopY)
            - (startY + ((id * chunkSize startY stopY numThreads : Nat) : Int))).toNat := by
    intro id hid
    unfold invertImage3Rows
    rw [invertImage3Region_eq _ _ _ _ _ _ hk1 hk hlo hn hhi hid, length_forUp_log]
  have e : (chunkSize startY stopY numThreads : Int) * numThreads
      = ((numThreads : Int) - 1) * chunkSize startY stopY numThreads
        + chunkSize startY stopY numThreads := by ring
  refine ⟨chunkSize_eq_ceilDiv startY stopY numThreads hk1 hn (by omega), ?_, ?_, by omega,
    by omega⟩
  · intro id hid
    rw [hlen id (by omega), if_pos hid, Nat.succ_mul]
    push_cast
    omega
  · rw [hlen (numThreads - 1) (by omega), if_neg (by omega)]
    have e2 : (((numThreads - 1) * chunkSize startY stopY numThreads : Nat) : Int)
        = ((numThreads : Int) - 1) * chunkSize startY stopY numThreads := by
      rw [Nat.cast_mul, Nat.cast_sub hk1]
      simp
    rw [e2]
    omega

theorem chunk_row_counts_witness :
    (1 ≤ 3 ∧ 3 ≤ 1073741824 ∧ (-1073741824 : Int) ≤ -5 ∧ (5 : Int) < 1073741824 ∧
      (1 : Int) ≤ 5 - (-5) ∧ (((3 : Nat) : Int) - 1) * chunkSize (-5) 5 3 ≤ (5 : Int) - (-5)) ∧
    ((∀ id, id + 1 < 3 → (invertImage3Rows (-5) 5 3 id).length = chunkSize (-5) 5 3) ∧
      ((invertImage3Rows (-5) 5 3 (3 - 1)).length : Int)
        = (5 : Int) - (-5) - (((3 : Nat) : Int) - 1) * chunkSize (-5) 5 3) :=
  ⟨by decide,
   (chunk_row_counts (-5) 5 3 (by decide) (by decide) (by decide) (by decide) (by decide)
      (by decide)).2.1,
   (chunk_row_counts (-5) 5 3 (by decide) (by decide) (by decide) (by decide) (by decide)
      (by decide)).2.2.1⟩

end ImageConverter
